import Mathlib

/-!
Verification of the melody_lab core: a shallow embedding of `melody.py`,
`service.py` and `formula.py`.

Durations are modelled as exact rationals (the data model's Duration type).
Python's process-wide randomness is modelled by explicit oracle inputs:
the result of `random.sample` appears as a provided list, `random.shuffle`
as a provided permutation, `random.choice` / `random.choices` as provided
streams of indices or values.  Theorems quantify over all oracles that
satisfy the contracts of those primitives (e.g. a sample is a sorted list
of distinct in-range indices).

`Exception`s raised by the Python code are modelled with `Except String`.
-/

namespace MelodyLab

/-- An event of a melody: a Note (pitch + duration) or a Rest (duration),
after `music21.note.Note` / `music21.note.Rest` as used by `Melody`. -/
inductive Event (P : Type) where
  | note (pitch : P) (duration : ℚ)
  | rest (duration : ℚ)
deriving DecidableEq

variable {P : Type}

/-- `obj.duration.quarterLength`. -/
def Event.duration : Event P → ℚ
  | .note _ d => d
  | .rest d => d

/-- `isinstance(obj, Note)`. -/
def Event.isNote : Event P → Bool
  | .note _ _ => true
  | .rest _ => false

/-- `isinstance(obj, Rest)`. -/
def Event.isRest : Event P → Bool
  | .note _ _ => false
  | .rest _ => true

/-- `Melody.notes` — the list of Note events (melody.py line 32). -/
def notesOf (m : List (Event P)) : List (Event P) :=
  m.filter (fun e => e.isNote)

/-- `Melody.length` — the number of Note events (melody.py line 27). -/
def noteCount (m : List (Event P)) : ℕ :=
  (notesOf m).length

/-- The pitches of the Note events, in order. -/
def notePitches : List (Event P) → List P
  | [] => []
  | .note p _ :: tl => p :: notePitches tl
  | .rest _ :: tl => notePitches tl

/-- `melody.duration.quarterLength` — total duration of all events. -/
def totalDuration (m : List (Event P)) : ℚ :=
  (m.map Event.duration).sum

/-- `for note, pitch in zip(melody.notes, pitches): note.pitch = pitch` —
assign the given pitches to the Note events in order; `zip` stops at the
shorter sequence, remaining Notes keep their pitch (service.py line 317). -/
def assignPitches : List (Event P) → List P → List (Event P)
  | [], _ => []
  | m, [] => m
  | .rest d :: tl, ps => .rest d :: assignPitches tl ps
  | .note _ d :: tl, p :: ps => .note p d :: assignPitches tl ps

/-- Set the pitch of the i-th Note event (Rests are skipped when counting);
out-of-range indices leave the melody unchanged. -/
def setNotePitch : List (Event P) → ℕ → P → List (Event P)
  | [], _, _ => []
  | .note _ d :: tl, 0, p => .note p d :: tl
  | .note q d :: tl, i + 1, p => .note q d :: setNotePitch tl i p
  | .rest d :: tl, i, p => .rest d :: setNotePitch tl i p

/-- A Rest with `duration.quarterLength == 0`. -/
def isNullRest (e : Event P) : Bool :=
  e.isRest && decide (e.duration = 0)

/-- `drop_null_rests` (melody.py lines 57-60): remove every zero-duration
Rest. -/
def dropNullRests (m : List (Event P)) : List (Event P) :=
  m.filter (fun e => !isNullRest e)

/-- `join_consecutive_rests` (melody.py lines 62-67): the in-place
`pairwise` pass pushes the duration of each Rest of a run onto the next
Rest, leaving zero-duration Rests behind: for a pair of adjacent Rests,
`obj_2.duration += obj_1.duration; obj_1.duration = 0`, and the updated
`obj_2` is the first component of the next pair. -/
def joinRests : List (Event P) → List (Event P)
  | [] => []
  | .note p d :: tl => .note p d :: joinRests tl
  | [.rest d] => [.rest d]
  | .rest d1 :: .note p d :: tl => .rest d1 :: joinRests (.note p d :: tl)
  | .rest d1 :: .rest d2 :: tl => .rest 0 :: joinRests (.rest (d2 + d1) :: tl)
termination_by m => m.length

/-- `Melody.normalize` (melody.py lines 54-76): drop null rests, join
consecutive rests, drop the null rests produced by the join. -/
def normalize (m : List (Event P)) : List (Event P) :=
  dropNullRests (joinRests (dropNullRests m))

/-- `Melody.crop_length` (melody.py lines 78-110): keep every Rest and the
first `limit` Notes, stopping right after the `limit`-th Note; a
non-positive limit empties the melody. -/
def cropLength (m : List (Event P)) (limit : ℤ) : List (Event P) :=
  if limit ≤ 0 then []
  else cropGo m limit.toNat 0
where
  cropGo : List (Event P) → ℕ → ℕ → List (Event P)
    | [], _, _ => []
    | .note p d :: tl, limit, count =>
        if count + 1 = limit then [.note p d]
        else .note p d :: cropGo tl limit (count + 1)
    | .rest d :: tl, limit, count => .rest d :: cropGo tl limit count

/-- Python's `int()` applied to an exact rational: truncation toward zero. -/
def pyInt (q : ℚ) : ℤ :=
  q.num.tdiv q.den

/-- `random.randint(lo, hi)`: raises `ValueError` on an empty range,
otherwise returns the oracle-provided value. -/
def pyRandint (lo hi : ℤ) (v : ℤ) : Except String ℤ :=
  if hi < lo then Except.error "empty range for randrange()" else Except.ok v

/-- `MelodyService.DurationMode` (service.py lines 38-44). -/
inductive DurationMode where
  | Minimum
  | Maximum
  | Random
  | Fixed
deriving DecidableEq

/-- `MelodyService.AmountMode` (service.py lines 46-52). -/
inductive AmountMode where
  | Minimum
  | Maximum
  | Random
  | Fixed
deriving DecidableEq

/-- Modelled from the spec: `Tools.fraction_gcd` lives in
`library/tools.py`, which is absent from the sources; the spec defines the
grid size as "GCD (as exact rationals) of all Event durations".  This is
the standard GCD of fractions: the GCD of the numerators over the LCM of
the denominators. -/
def fractionGcd (a b : ℚ) : ℚ :=
  (Int.gcd a.num b.num : ℚ) / (Nat.lcm a.den b.den : ℚ)

/-- `Melody.grid_size` (melody.py lines 36-41): `functools.reduce` of
`fraction_gcd` over the event durations (`reduce` seeds with the first
element; it raises on an empty melody, modelled here as 0 — the spec says
"defined as 0 or undefined for an empty melody"). -/
def gridSize (m : List (Event P)) : ℚ :=
  match m.map Event.duration with
  | [] => 0
  | d :: ds => ds.foldl fractionGcd d

/-- `g` divides `q` exactly in ℚ: `q` is an integer multiple of `g`. -/
def QDvd (g q : ℚ) : Prop :=
  ∃ z : ℤ, q = z * g

/-- The consecutive differences produced by `itertools.pairwise` over the
slot indices (service.py line 171: `grid_between = next_note_idx - note_idx`). -/
def pairGaps : List ℕ → List ℕ
  | a :: b :: tl => (b - a) :: pairGaps (b :: tl)
  | _ => []

/-- The body of the `for note_idx, next_note_idx in itertools.pairwise(...)`
loop (service.py lines 171-210), one iteration per consecutive gap.  For a
gap of 0 slots the code forces a 1-slot note (dead branch: sampled indices
are distinct); otherwise Random mode picks `choose k gap ∈ [1, gap]` and
Maximum mode takes the whole gap; the remaining `gap - note_grid` slots
become a Rest, emitted only when nonzero. -/
def buildSegments (gs : ℚ) (isRandom : Bool) (choose : ℕ → ℕ → ℕ) (dflt : P) :
    ℕ → List ℕ → List (Event P)
  | _, [] => []
  | k, gap :: rest =>
      let noteGrid := if gap = 0 then 1 else if isRandom then choose k gap else gap
      let restGrid := gap - noteGrid
      Event.note dflt ((noteGrid : ℚ) * gs) ::
        ((if restGrid = 0 then [] else [Event.rest ((restGrid : ℚ) * gs)]) ++
          buildSegments gs isRandom choose dflt (k + 1) rest)

/-- The oracle holding the outcomes of the `random` module calls made by
`GenerateMelody`:
* `noteIndices` — `sorted(random.sample(grid_indices, k=length))`
  (service.py lines 156-157);
* `chooseGrid k gap` — `random.choice(range(1, gap+1))` at loop step `k`
  (line 196);
* `shuffleObjs` — the effect of `random.shuffle(melody_objects)`
  (line 235);
* `chosenPitches` — the pitch sequence produced by lines 241-314
  (its mode-dependent characterisation is `PitchOutcome`). -/
structure Rand (P : Type) where
  noteIndices : List ℕ
  chooseGrid : ℕ → ℕ → ℕ
  shuffleObjs : List (Event P) → List (Event P)
  chosenPitches : List P

/-- `MelodyService.GenerateMelody` (service.py lines 76-321), with the
random draws supplied by the oracle `r`.  Floats are modelled as exact
rationals; `int(x) != x` becomes `(pyInt x : ℚ) ≠ x`; the falsy test
`if not note_duration` catches both `None` and `0`. -/
def GenerateMelody [DecidableEq P] (dflt : P) (pitches0 : List P) (len : ℤ)
    (duration gs : ℚ) (mode : DurationMode) (noteDur : Option ℚ)
    (alternate useAll : Bool) (r : Rand P) : Except String (List (Event P)) :=
  let pitches := pitches0.dedup
  if len ≤ 0 then Except.ok []
  else if duration < gs then
    Except.error "Duration must be greater than grid_size"
  else if (pyInt (duration / gs) : ℚ) ≠ duration / gs then
    Except.error "Duration is not evenly divisible by grid_size"
  else if pyInt (duration / gs) < len then
    Except.error "Too many notes for given duration and grid_size"
  else if mode = DurationMode.Fixed ∧ noteDur.getD 0 = 0 then
    Except.error "Note length not set"
  else if mode = DurationMode.Fixed ∧ duration < noteDur.getD 0 * (len : ℚ) then
    Except.error "Too many notes for given durations"
  else if mode = DurationMode.Fixed ∧ noteDur.getD 0 < gs then
    Except.error "Note duration must be greater than grid_size"
  else if mode = DurationMode.Fixed ∧
      (pyInt (noteDur.getD 0 / gs) : ℚ) ≠ noteDur.getD 0 / gs then
    Except.error "Note duration is not evenly divisible by grid_size"
  else if alternate ∧ pitches.length < 2 then
    Except.error "Too few pitches to alternate"
  else if useAll ∧ (len : ℤ) < (pitches.length : ℤ) then
    Except.error "Too short length to use all notes"
  else
    let slots : ℕ := (pyInt (duration / gs)).toNat
    let melody : List (Event P) :=
      if mode = DurationMode.Random ∨ mode = DurationMode.Maximum then
        -- lines 150-213: sampled slot indices, sentinel, leading rest,
        -- then one note (and optional rest) per consecutive gap
        let full := r.noteIndices ++ [slots]
        let i0 := full.headD 0
        (if (i0 : ℚ) * gs ≠ 0 then [Event.rest ((i0 : ℚ) * gs)] else []) ++
          buildSegments gs (mode = DurationMode.Random) r.chooseGrid dflt 0 (pairGaps full)
      else
        -- lines 215-237: fixed-length notes, minimal rests, shuffle, normalize
        let nd := if mode = DurationMode.Minimum then gs else noteDur.getD 0
        let nRests := (pyInt (duration / gs) - pyInt ((len : ℚ) * nd / gs)).toNat
        let objs := List.replicate len.toNat (Event.note dflt nd) ++
          List.replicate nRests (Event.rest gs)
        normalize (r.shuffleObjs objs)
    Except.ok (assignPitches melody r.chosenPitches)

/-- The contract of the random primitives used by `GenerateMelody`'s rhythm
phase: the sorted sample consists of `len` distinct slot indices below
`slots`, `random.choice(range(1, gap+1))` lands in `[1, gap]`, and
`random.shuffle` permutes its list. -/
structure RandOK (r : Rand P) (slots len : ℕ) : Prop where
  idx_sorted : r.noteIndices.Sorted (· < ·)
  idx_lt : ∀ i ∈ r.noteIndices, i < slots
  idx_len : r.noteIndices.length = len
  choose_pos : ∀ k g, 0 < g → 0 < r.chooseGrid k g
  choose_le : ∀ k g, 0 < g → r.chooseGrid k g ≤ g
  shuffle_perm : ∀ l : List (Event P), List.Perm (r.shuffleObjs l) l

/-- `can_insert_pitch` (service.py lines 301-305): position `i` admits
pitch `p` when neither the element before it nor the element at it equals
`p` (`None` at the borders never equals a pitch). -/
def CanInsert (l : List P) (i : ℕ) (p : P) : Prop :=
  (i = 0 ∨ l.get? (i - 1) ≠ some p) ∧ l.get? i ≠ some p

/-- `chosen_pitches.insert(idx_to_insert, pitch_to_insert)` (line 309);
like Python's `list.insert`, an index beyond the end appends. -/
def insertAt : List P → ℕ → P → List P
  | l, 0, p => p :: l
  | [], _ + 1, p => [p]
  | a :: tl, i + 1, p => a :: insertAt tl i p

/-- One successful iteration of the alternate-mode insertion loop
(service.py lines 284-314): a pitch drawn from the parameter set is
inserted at an admissible position.  Iterations whose inner loop exhausts
all positions leave the state unchanged and are absorbed by reflexive
closure. -/
inductive AltStep (pitches : List P) : List P → List P → Prop where
  | insert (l : List P) (p : P) (i : ℕ) (hp : p ∈ pitches) (hi : i ≤ l.length)
      (hc : CanInsert l i p) : AltStep pitches l (insertAt l i p)

/-- All states reachable by the alternate-mode insertion loop. -/
def AltReach (pitches : List P) : List P → List P → Prop :=
  Relation.ReflTransGen (AltStep pitches)

/-- The possible values of `chosen_pitches` at service.py line 316, one
case per cell of the 2x2 `alternate`/`use_all` policy (lines 241-314):
* alternate: a terminating run of the insertion loop, seeded with a
  shuffled copy of all distinct pitches when `use_all` else with `[]`,
  stopping as soon as the target length is reached;
* use_all only: a shuffle of all distinct pitches plus `len - count`
  additional draws with replacement;
* neither: `len` draws with replacement, shuffled. -/
def PitchOutcome (pitches : List P) (len : ℕ) (alternate useAll : Bool)
    (chosen : List P) : Prop :=
  if alternate then
    ∃ seed : List P, (if useAll then List.Perm seed pitches else seed = []) ∧
      AltReach pitches seed chosen ∧ chosen.length = len
  else if useAll then
    ∃ extra : List P, (∀ p ∈ extra, p ∈ pitches) ∧
      extra.length = len - pitches.length ∧ List.Perm chosen (pitches ++ extra)
  else
    chosen.length = len ∧ ∀ p ∈ chosen, p ∈ pitches

/-- The deduplicated pitch pool of `ChangePitch` (service.py lines
343-346): `pitches = pitches or [n.pitch for n in melody.notes]` (an empty
or missing parameter falls back to the melody's own pitches), then
`list(set(pitches))`. -/
def pitchPool [DecidableEq P] (m : List (Event P)) (pitchesP : Option (List P)) : List P :=
  (match pitchesP with
    | none => notePitches m
    | some l => if l.isEmpty then notePitches m else l).dedup

/-- `MelodyService.ChangePitch` (service.py lines 323-381).  The oracle
`rA` is the value of `random.randint(1, melody.length)`; `sel` is the
stream of note indices behind `random.choices(melody.notes, k=amount)` —
a selection WITH replacement; `pickP j` indexes the `random.choice(pitches)`
made for the `j`-th selected note. -/
def ChangePitch [DecidableEq P] (dflt : P) (m : List (Event P)) (mode : AmountMode)
    (amount : Option ℤ) (pitchesP : Option (List P)) (rA : ℤ) (sel : List ℕ)
    (pickP : ℕ → ℕ) : Except String (List (Event P)) :=
  let ps := pitchPool m pitchesP
  let amt : Except String ℤ :=
    match mode with
    | .Minimum => Except.ok 1
    | .Random => pyRandint 1 (noteCount m : ℤ) rA
    | .Maximum => Except.ok (noteCount m : ℤ)
    | .Fixed =>
        match amount with
        | none => Except.error "Invalid amount: None"
        | some a =>
            if a = 0 then Except.error "Invalid amount: 0"
            else if (noteCount m : ℤ) < a then Except.error "Invalid amount"
            else Except.ok a
  match amt with
  | Except.error e => Except.error e
  | Except.ok k =>
      let writes := (sel.take k.toNat).zip
        ((List.range k.toNat).map (fun j => ps.getD (pickP j) dflt))
      Except.ok (writes.foldl (fun mm w => setNotePitch mm w.1 w.2) m)

/-- `MelodyService.ShiftPitch` (service.py lines 436-488).  NOTE:
`random_amount = random.randint(1, melody.length - 1)` is computed
unconditionally at line 457, BEFORE the `melody.length < 2` no-op guard at
line 470, so for melodies with fewer than 2 Notes the call raises
`ValueError` in every amount mode and the guard is dead code. -/
def ShiftPitch (m : List (Event P)) (mode : AmountMode) (amount : Option ℤ)
    (rA : ℤ) : Except String (List (Event P)) :=
  match pyRandint 1 ((noteCount m : ℤ) - 1) rA with
  | Except.error e => Except.error e
  | Except.ok ra =>
      let amt : Option ℤ :=
        match mode with
        | .Minimum => some 1
        | .Maximum => some ((noteCount m : ℤ) - 1)
        | .Random => some ra
        | .Fixed => amount
      if noteCount m < 2 then Except.ok m
      else
        match amt with
        | none => Except.error "Invalid amount: None"
        | some k =>
            if k = 0 then Except.error "Invalid amount: 0"
            else
              -- shifted_notes = notes[amount:] + notes[:amount]
              Except.ok (assignPitches m
                ((notePitches m).drop k.toNat ++ (notePitches m).take k.toNat))

/-- `MelodyService.ShufflePitch` (service.py lines 490-554).  Like
`ShiftPitch`, `random.randint(2, melody.length)` runs at line 511 before
the `melody.length < 2` guard at line 524, so short melodies raise
`ValueError` in every amount mode.  `sel` is the sampled list of note
indices, `sel2` its shuffle. -/
def ShufflePitch (m : List (Event P)) (mode : AmountMode) (amount : Option ℤ)
    (rA : ℤ) (sel sel2 : List ℕ) : Except String (List (Event P)) :=
  match pyRandint 2 (noteCount m : ℤ) rA with
  | Except.error e => Except.error e
  | Except.ok ra =>
      let amt : Option ℤ :=
        match mode with
        | .Minimum => some 2
        | .Maximum => some (noteCount m : ℤ)
        | .Random => some ra
        | .Fixed => amount
      if noteCount m < 2 then Except.ok m
      else
        match amt with
        | none => Except.error "Invalid amount: None"
        | some k =>
            if k = 0 then Except.error "Invalid amount: 0"
            else if (noteCount m : ℤ) < k then Except.error "amount > melody.length"
            else
              let idxs := sel.take k.toNat
              let ps := (sel2.take k.toNat).map (fun i => (notePitches m).get? i)
              Except.ok ((idxs.zip ps).foldl
                (fun mm w => match w.2 with
                  | some p => setNotePitch mm w.1 p
                  | none => mm) m)

/-- `MelodyService.RevertPitch` (service.py lines 620-650): a no-op for
fewer than 2 Notes, otherwise each Note receives the pitch of its
mirror-position counterpart (`zip(melody.notes, reversed(copies))`). -/
def RevertPitch (m : List (Event P)) : List (Event P) :=
  if noteCount m < 2 then m
  else assignPitches m (notePitches m).reverse

/-!  The Formula Graph Node (`formula.py`).  A node binds an operation
(identified by `op` in an environment `ops`) to arguments that are either
literal melodies or further nodes; `cache` is the memo slot `_value`.
Evaluation returns the result, the updated node (children may memoize),
and the observable trace: operation invocations and on-success/on-error
hook calls, tagged with the node's `id`. -/

mutual
inductive FNode (P : Type) where
  | mk (id : ℕ) (op : ℕ) (args : FArgs P) (cache : Option (List (Event P)))
inductive FArgs (P : Type) where
  | nil
  | cons (a : FArg P) (tl : FArgs P)
inductive FArg (P : Type) where
  | lit (m : List (Event P))
  | node (n : FNode P)
end

def FNode.cache : FNode P → Option (List (Event P))
  | .mk _ _ _ c => c

def FNode.nid : FNode P → ℕ
  | .mk i _ _ _ => i

/-- Observable events of an evaluation. -/
inductive FEvent where
  | invoke (id : ℕ)
  | success (id : ℕ)
  | errorHook (id : ℕ)
deriving DecidableEq

/-- The memo test `if not self._value:` (formula.py line 51): the slot
counts as filled only when it is a non-falsy value — `None` and the empty
`Melody` (an empty `music21` Stream is falsy) both fail the test. -/
def truthy : Option (List (Event P)) → Bool
  | none => false
  | some m => !m.isEmpty

/- `MelodyFormula.value` (formula.py lines 46-72).  If the memo slot is
truthy, return it.  Otherwise the `kwargs` dict comprehension (lines
54-57) evaluates every `MelodyFormula` argument recursively OUTSIDE the
`try` block — a failing dependency propagates without `on_error`; then the
bound method runs inside `try`: on failure `on_error` fires and the
exception propagates with `_value` untouched, on success the value is
stored and `on_success` fires. -/
mutual
def evalNode (ops : ℕ → List (List (Event P)) → Except String (List (Event P))) :
    FNode P → Except String (List (Event P)) × FNode P × List FEvent
  | FNode.mk i op args cache =>
      if truthy cache then (Except.ok (cache.getD []), FNode.mk i op args cache, [])
      else
        match evalArgs ops args with
        | (Except.error e, args2, tr) => (Except.error e, FNode.mk i op args2 cache, tr)
        | (Except.ok vs, args2, tr) =>
            match ops op vs with
            | Except.error e =>
                (Except.error e, FNode.mk i op args2 cache,
                  tr ++ [FEvent.invoke i, FEvent.errorHook i])
            | Except.ok m =>
                (Except.ok m, FNode.mk i op args2 (some m),
                  tr ++ [FEvent.invoke i, FEvent.success i])
def evalArgs (ops : ℕ → List (List (Event P)) → Except String (List (Event P))) :
    FArgs P → Except String (List (List (Event P))) × FArgs P × List FEvent
  | FArgs.nil => (Except.ok [], FArgs.nil, [])
  | FArgs.cons a tl =>
      match evalArg ops a with
      | (Except.error e, a2, tr) => (Except.error e, FArgs.cons a2 tl, tr)
      | (Except.ok v, a2, tr) =>
          match evalArgs ops tl with
          | (Except.error e, tl2, tr2) =>
              (Except.error e, FArgs.cons a2 tl2, tr ++ tr2)
          | (Except.ok vs, tl2, tr2) =>
              (Except.ok (v :: vs), FArgs.cons a2 tl2, tr ++ tr2)
def evalArg (ops : ℕ → List (List (Event P)) → Except String (List (Event P))) :
    FArg P → Except String (List (Event P)) × FArg P × List FEvent
  | FArg.lit m => (Except.ok m, FArg.lit m, [])
  | FArg.node n =>
      match evalNode ops n with
      | (res, n2, tr) => (res, FArg.node n2, tr)
end

/-!  Heap model for the non-mutation contract.  Python melodies are
streams of mutable event objects; `copy.deepcopy` allocates fresh objects.
We model the object store as a list of events (`Heap`), addresses are
indices, and a melody object is its ordered list of event addresses
(`MRef`).  `deepcopy` appends copies of the referenced cells and returns
the fresh address range; every pitch mutation is a `List.set` on one cell.
An operation does not mutate an input exactly when the input's addresses
read the same before and after the call. -/

abbrev Heap (P : Type) := List (Event P)

abbrev MRef := List ℕ

/-- The observable value of a melody object: what each of its event
addresses holds. -/
def readMel (h : Heap P) (m : MRef) : List (Option (Event P)) :=
  m.map h.get?

/-- The event values of a melody object (valid addresses only). -/
def melVals (h : Heap P) (m : MRef) : List (Event P) :=
  m.filterMap h.get?

/-- `copy.deepcopy(melody)`: append a copy of each referenced cell, return
the new heap and the fresh address range. -/
def deepcopyM (h : Heap P) (m : MRef) : Heap P × MRef :=
  (h ++ m.map (fun a => (h.get? a).getD (Event.rest 0)),
    List.range' h.length m.length)

/-- Allocate a list of fresh event objects (a newly built melody). -/
def allocM (h : Heap P) (evs : List (Event P)) : Heap P × MRef :=
  (h ++ evs, List.range' h.length evs.length)

/-- The addresses of a melody object's Note events (`melody.notes`). -/
def noteRefs (h : Heap P) (m : MRef) : MRef :=
  m.filter (fun a => ((h.get? a).map Event.isNote).getD false)

/-- `note.pitch` read at an address. -/
def getPitchH (h : Heap P) (a : ℕ) : Option P :=
  match h.get? a with
  | some (Event.note p _) => some p
  | _ => none

/-- `note.pitch = p`: overwrite the pitch of the Note cell at `a`. -/
def setPitchH (h : Heap P) (a : ℕ) (p : P) : Heap P :=
  match h.get? a with
  | some (Event.note _ d) => h.set a (Event.note p d)
  | _ => h

def setPitchO (h : Heap P) (a : ℕ) : Option P → Heap P
  | some p => setPitchH h a p
  | none => h

def setPitchesH (h : Heap P) (ws : List (ℕ × P)) : Heap P :=
  ws.foldl (fun hh w => setPitchH hh w.1 w.2) h

def setPitchesO (h : Heap P) (ws : List (ℕ × Option P)) : Heap P :=
  ws.foldl (fun hh w => setPitchO hh w.1 w.2) h

/-- `for note_1, note_2 in more_itertools.batched(notes, 2): swap pitches`
(service.py lines 430-431). -/
def swapPairsH (h : Heap P) : List ℕ → Heap P
  | a :: b :: tl =>
      swapPairsH (setPitchO (setPitchO h a (getPitchH h b)) b (getPitchH h a)) tl
  | _ => h

/-- `MelodyService.ChangePitch` on the heap (service.py lines 323-381):
deepcopy the input, resolve `amount` by mode, then write an
oracle-chosen pitch to each of the `amount` note cells selected (with
replacement) by `random.choices`; `sel` indexes the copy's note list and
`pickP` supplies the `random.choice(pitches)` results (the written values
play no role in the frame property). -/
def ChangePitchH (h : Heap P) (m : MRef) (mode : AmountMode) (amount : Option ℤ)
    (rA : ℤ) (sel : List ℕ) (pickP : ℕ → P) : Except String (Heap P × MRef) :=
  let hc := deepcopyM h m
  let h1 := hc.1
  let c := hc.2
  let nrefs := noteRefs h1 c
  let amt : Except String ℤ :=
    match mode with
    | .Minimum => Except.ok 1
    | .Random => pyRandint 1 (nrefs.length : ℤ) rA
    | .Maximum => Except.ok (nrefs.length : ℤ)
    | .Fixed =>
        match amount with
        | none => Except.error "Invalid amount: None"
        | some a =>
            if a = 0 then Except.error "Invalid amount: 0"
            else if (nrefs.length : ℤ) < a then Except.error "Invalid amount"
            else Except.ok a
  match amt with
  | Except.error e => Except.error e
  | Except.ok k =>
      let targets := (sel.take k.toNat).filterMap nrefs.get?
      Except.ok (setPitchesH h1 (targets.zip ((List.range targets.length).map pickP)), c)

/-- `MelodyService.SwapPitch` on the heap (service.py lines 383-434):
deepcopy, resolve the pair count, `random.sample` then shuffle the chosen
note cells (`sel` indexes the copy's note list), swap pitches pairwise. -/
def SwapPitchH (h : Heap P) (m : MRef) (mode : AmountMode) (amount : Option ℤ)
    (rA : ℤ) (sel : List ℕ) : Except String (Heap P × MRef) :=
  let hc := deepcopyM h m
  let h1 := hc.1
  let c := hc.2
  let nrefs := noteRefs h1 c
  match pyRandint 1 ((nrefs.length / 2 : ℕ) : ℤ) rA with
  | Except.error e => Except.error e
  | Except.ok ra =>
      let amt : Option ℤ :=
        match mode with
        | .Minimum => some 1
        | .Maximum => some ((nrefs.length / 2 : ℕ) : ℤ)
        | .Random => some ra
        | .Fixed => amount
      if nrefs.length < 2 then Except.error "melody.length < 2"
      else
        match amt with
        | none => Except.error "Invalid amount: None"
        | some k =>
            if k = 0 then Except.error "Invalid amount: 0"
            else if (nrefs.length : ℤ) < 2 * k then
              Except.error "Sample larger than population"
            else
              Except.ok (swapPairsH h1 ((sel.take (2 * k).toNat).filterMap nrefs.get?), c)

/-- `MelodyService.ShiftPitch` on the heap (service.py lines 436-488):
deepcopy, unconditional `randint(1, length-1)`, dead `length < 2` guard,
then rotate the pitch sequence by `amount`. -/
def ShiftPitchH (h : Heap P) (m : MRef) (mode : AmountMode) (amount : Option ℤ)
    (rA : ℤ) : Except String (Heap P × MRef) :=
  let hc := deepcopyM h m
  let h1 := hc.1
  let c := hc.2
  let nrefs := noteRefs h1 c
  match pyRandint 1 ((nrefs.length : ℤ) - 1) rA with
  | Except.error e => Except.error e
  | Except.ok ra =>
      let amt : Option ℤ :=
        match mode with
        | .Minimum => some 1
        | .Maximum => some ((nrefs.length : ℤ) - 1)
        | .Random => some ra
        | .Fixed => amount
      if nrefs.length < 2 then Except.ok (h1, c)
      else
        match amt with
        | none => Except.error "Invalid amount: None"
        | some k =>
            if k = 0 then Except.error "Invalid amount: 0"
            else
              let ps := nrefs.map (getPitchH h1)
              Except.ok (setPitchesO h1
                (nrefs.zip (ps.drop k.toNat ++ ps.take k.toNat)), c)

/-- `MelodyService.ShufflePitch` on the heap (service.py lines 490-554):
deepcopy, unconditional `randint(2, length)`, dead `length < 2` guard,
then permute the pitches of the sampled note indices (`sel` the sample,
`sel2` its shuffle). -/
def ShufflePitchH (h : Heap P) (m : MRef) (mode : AmountMode) (amount : Option ℤ)
    (rA : ℤ) (sel sel2 : List ℕ) : Except String (Heap P × MRef) :=
  let hc := deepcopyM h m
  let h1 := hc.1
  let c := hc.2
  let nrefs := noteRefs h1 c
  match pyRandint 2 (nrefs.length : ℤ) rA with
  | Except.error e => Except.error e
  | Except.ok ra =>
      let amt : Option ℤ :=
        match mode with
        | .Minimum => some 2
        | .Maximum => some (nrefs.length : ℤ)
        | .Random => some ra
        | .Fixed => amount
      if nrefs.length < 2 then Except.ok (h1, c)
      else
        match amt with
        | none => Except.error "Invalid amount: None"
        | some k =>
            if k = 0 then Except.error "Invalid amount: 0"
            else if (nrefs.length : ℤ) < k then Except.error "amount > melody.length"
            else
              let idxs := sel.take k.toNat
              let ps := (sel2.take k.toNat).map (fun i => (nrefs.get? i).bind (getPitchH h1))
              let ws := (idxs.zip ps).filterMap
                (fun w => (nrefs.get? w.1).map (fun a => (a, w.2)))
              Except.ok (setPitchesO h1 ws, c)

/-- `MelodyService.RemapPitch` on the heap (service.py lines 556-618):
deepcopy, unconditional `randint(2, length)`, dead `length < 2` guard,
sample `amount` note cells, build a shuffled bijection over their distinct
pitches (`permP` the shuffle oracle), rewrite each sampled cell through
the mapping. -/
def RemapPitchH [DecidableEq P] (h : Heap P) (m : MRef) (mode : AmountMode)
    (amount : Option ℤ) (rA : ℤ) (sel : List ℕ) (permP : List P → List P) :
    Except String (Heap P × MRef) :=
  let hc := deepcopyM h m
  let h1 := hc.1
  let c := hc.2
  let nrefs := noteRefs h1 c
  match pyRandint 2 (nrefs.length : ℤ) rA with
  | Except.error e => Except.error e
  | Except.ok ra =>
      let amt : Option ℤ :=
        match mode with
        | .Minimum => some 2
        | .Maximum => some (nrefs.length : ℤ)
        | .Random => some ra
        | .Fixed => amount
      if nrefs.length < 2 then Except.ok (h1, c)
      else
        match amt with
        | none => Except.error "Invalid amount: None"
        | some k =>
            if k = 0 then Except.error "Invalid amount: 0"
            else if (nrefs.length : ℤ) < k then Except.error "amount > melody.length"
            else
              let targets := (sel.take k.toNat).filterMap nrefs.get?
              let pts := (targets.filterMap (getPitchH h1)).dedup
              let assoc := pts.zip (permP pts)
              let ws := targets.map (fun a =>
                (a, (getPitchH h1 a).bind (fun p =>
                  (assoc.find? (fun q => decide (q.1 = p))).map (fun q => q.2))))
              Except.ok (setPitchesO h1 ws, c)

/-- `MelodyService.RevertPitch` on the heap (service.py lines 620-650). -/
def RevertPitchH (h : Heap P) (m : MRef) : Heap P × MRef :=
  let hc := deepcopyM h m
  let h1 := hc.1
  let c := hc.2
  let nrefs := noteRefs h1 c
  if nrefs.length < 2 then (h1, c)
  else (setPitchesO h1 (nrefs.zip (nrefs.map (getPitchH h1)).reverse), c)

/-- `MelodyService.ChangeRhythm` on the heap (service.py lines 652-699):
deepcopy the input, default `duration`/`grid_size` from it (the falsy `or`
also replaces an explicit 0), build a fresh melody via `GenerateMelody`
on a single filler pitch `c0`, then write the input's pitch sequence onto
the fresh melody's notes. -/
def ChangeRhythmH [DecidableEq P] (h : Heap P) (m : MRef) (durO gsO : Option ℚ)
    (mode : DurationMode) (nd : Option ℚ) (r : Rand P) (c0 : P) :
    Except String (Heap P × MRef) :=
  let hc := deepcopyM h m
  let h1 := hc.1
  let c := hc.2
  let vals := melVals h1 c
  let dur := match durO with
    | some d => if d = 0 then totalDuration vals else d
    | none => totalDuration vals
  let gs := match gsO with
    | some g => if g = 0 then gridSize vals else g
    | none => gridSize vals
  match GenerateMelody c0 [c0] (noteCount vals : ℤ) dur gs mode nd false false r with
  | Except.error e => Except.error e
  | Except.ok evs =>
      let hn := allocM h1 evs
      let h2 := hn.1
      let newm := hn.2
      -- counts agree (GenerateMelody returns `length` notes), so `zip`
      -- models the positional loop of lines 695-696
      Except.ok (setPitchesO h2
        ((noteRefs h2 newm).zip ((notePitches vals).map some)), newm)

/-- `Melody.__add__` (melody.py lines 20-24): deepcopy the right operand,
deepcopy the left, append the right copy's events to the left copy. -/
def addMelH (h : Heap P) (m1 m2 : MRef) : Heap P × MRef :=
  let hc2 := deepcopyM h m2
  let hc1 := deepcopyM hc2.1 m1
  (hc1.1, hc1.2 ++ hc2.2)

/-- `MelodyService.ConcatMelodies` (service.py lines 701-720): drop falsy
arguments (unset slots and empty melodies are both falsy), return a fresh
empty melody when nothing remains, else left-fold `+`. -/
def ConcatMelodiesH (h : Heap P) (m1 m2 m3 m4 : Option MRef) : Heap P × MRef :=
  let ms := ([m1, m2, m3, m4].filterMap id).filter (fun m => !m.isEmpty)
  match ms with
  | [] => (h, [])
  | m0 :: rest => rest.foldl (fun acc mm => addMelH acc.1 acc.2 mm) (h, m0)

/-- `Melody.crop_length` on melody-object structure (melody.py lines
78-110): cropping rearranges the object's event list, not the cells. -/
def cropRefsGo (h : Heap P) : MRef → ℕ → ℕ → MRef
  | [], _, _ => []
  | a :: tl, limit, count =>
      if ((h.get? a).map Event.isNote).getD false then
        if count + 1 = limit then [a]
        else a :: cropRefsGo h tl limit (count + 1)
      else a :: cropRefsGo h tl limit count

def cropRefs (h : Heap P) (m : MRef) (limit : ℤ) : MRef :=
  if limit ≤ 0 then [] else cropRefsGo h m limit.toNat 0

/-- `MelodyService.SubstitutePitch` on the heap (service.py lines
722-752): deepcopy `rhythm` then `sequence`, optionally crop the rhythm
copy, then write `sequence`'s pitches onto the rhythm copy's notes in
positional order (`zip` truncates at the shorter). -/
def SubstitutePitchH (h : Heap P) (mr ms : MRef) (crop : Bool) : Heap P × MRef :=
  let hr := deepcopyM h mr
  let hs := deepcopyM hr.1 ms
  let h2 := hs.1
  let cr := hr.2
  let cs := hs.2
  let rLen := (noteRefs h2 cr).length
  let sLen := (noteRefs h2 cs).length
  let cr2 := if crop ∧ sLen < rLen then cropRefs h2 cr (sLen : ℤ) else cr
  (setPitchesO h2
    ((noteRefs h2 cr2).zip ((notePitches (melVals h2 cs)).map some)), cr2)

/-- `MelodyService.SubstituteRhythm` (service.py lines 754-781): deepcopy
both inputs (rhythm first), then delegate to `SubstitutePitch` (which
copies again). -/
def SubstituteRhythmH (h : Heap P) (mseq mr : MRef) : Heap P × MRef :=
  let hr := deepcopyM h mr
  let hs := deepcopyM hr.1 mseq
  SubstitutePitchH hs.1 hr.2 hs.2 true

/-!  Concrete instances used by the closed witness theorems. -/

/-- A concrete oracle: sample `[0, 1]`, `choice(range(1, g+1)) = g`,
identity shuffle, chosen pitches `[0, 1]`. -/
def exRand : Rand ℕ :=
  ⟨[0, 1], fun _ g => g, id, [0, 1]⟩

/-- An operation environment whose every operation returns the empty
melody (e.g. `GenerateMelody` with `length <= 0`). -/
def opsEmpty : ℕ → List (List (Event ℕ)) → Except String (List (Event ℕ)) :=
  fun _ _ => Except.ok []

/-- An operation environment whose every operation returns a one-note
melody. -/
def opsOne : ℕ → List (List (Event ℕ)) → Except String (List (Event ℕ)) :=
  fun _ _ => Except.ok [Event.note 0 1]

/-- An operation environment in which operation 1 raises and every other
operation succeeds. -/
def opsDep : ℕ → List (List (Event ℕ)) → Except String (List (Event ℕ)) :=
  fun o _ => if o = 1 then Except.error "boom" else Except.ok [Event.note 0 1]

/-- An operation environment whose every operation raises. -/
def opsFail : ℕ → List (List (Event ℕ)) → Except String (List (Event ℕ)) :=
  fun _ _ => Except.error "boom"

/-- A node (id 0) whose single argument is a dependency node (id 1) bound
to the failing operation 1. -/
def nodeDep : FNode ℕ :=
  FNode.mk 0 0 (FArgs.cons (FArg.node (FNode.mk 1 1 FArgs.nil none)) FArgs.nil) none

/-- A concrete three-event heap and a melody object over it. -/
def heapW : Heap ℕ :=
  [Event.note 10 1, Event.rest 1, Event.note 11 1]

def mrefW : MRef :=
  [0, 1, 2]

/-!  Basic lemmas about the melody queries. -/

theorem notesOf_append (a b : List (Event P)) :
    notesOf (a ++ b) = notesOf a ++ notesOf b := by
  simp [notesOf]

theorem noteCount_append (a b : List (Event P)) :
    noteCount (a ++ b) = noteCount a + noteCount b := by
  simp [noteCount, notesOf_append]

theorem notesOf_cons_note (p : P) (d : ℚ) (tl : List (Event P)) :
    notesOf (Event.note p d :: tl) = Event.note p d :: notesOf tl := by
  simp [notesOf, Event.isNote]

theorem notesOf_cons_rest (d : ℚ) (tl : List (Event P)) :
    notesOf (Event.rest d :: tl) = notesOf tl := by
  simp [notesOf, Event.isNote]

theorem noteCount_cons_note (p : P) (d : ℚ) (tl : List (Event P)) :
    noteCount (Event.note p d :: tl) = noteCount tl + 1 := by
  simp [noteCount, notesOf_cons_note]

theorem noteCount_cons_rest (d : ℚ) (tl : List (Event P)) :
    noteCount (Event.rest d :: tl) = noteCount tl := by
  simp [noteCount, notesOf_cons_rest]

theorem totalDuration_nil : totalDuration ([] : List (Event P)) = 0 := rfl

theorem totalDuration_cons (e : Event P) (tl : List (Event P)) :
    totalDuration (e :: tl) = e.duration + totalDuration tl := by
  simp [totalDuration]

theorem totalDuration_append (a b : List (Event P)) :
    totalDuration (a ++ b) = totalDuration a + totalDuration b := by
  simp [totalDuration]

theorem notePitches_length (m : List (Event P)) :
    (notePitches m).length = noteCount m := by
  induction m with
  | nil => rfl
  | cons e tl ih =>
      cases e <;> simp [notePitches, noteCount, notesOf, Event.isNote] at * <;>
        simpa [noteCount, notesOf] using ih

/-!  `assignPitches` only rewrites pitches: the shape (note/rest pattern
and durations) is untouched. -/

theorem assign_nil_pitches (m : List (Event P)) : assignPitches m [] = m := by
  cases m with
  | nil => simp [assignPitches]
  | cons e tl => simp [assignPitches]

theorem assign_map_duration (m : List (Event P)) (ps : List P) :
    (assignPitches m ps).map Event.duration = m.map Event.duration := by
  induction m generalizing ps with
  | nil => simp [assignPitches]
  | cons e tl ih =>
      cases ps with
      | nil => rw [assign_nil_pitches]
      | cons p ptl =>
          cases e with
          | note q d => simp [assignPitches, Event.duration, ih]
          | rest d => simp [assignPitches, Event.duration, ih]

theorem assign_noteCount (m : List (Event P)) (ps : List P) :
    noteCount (assignPitches m ps) = noteCount m := by
  induction m generalizing ps with
  | nil => simp [assignPitches]
  | cons e tl ih =>
      cases ps with
      | nil => rw [assign_nil_pitches]
      | cons p ptl =>
          cases e with
          | note q d =>
              simp [assignPitches, noteCount, notesOf, Event.isNote]
              simpa [noteCount, notesOf] using ih ptl
          | rest d =>
              simp [assignPitches, noteCount, notesOf, Event.isNote]
              simpa [noteCount, notesOf] using ih (p :: ptl)

theorem assign_totalDuration (m : List (Event P)) (ps : List P) :
    totalDuration (assignPitches m ps) = totalDuration m := by
  simp [totalDuration, assign_map_duration]

theorem assign_notePitches (m : List (Event P)) (ps : List P) :
    notePitches (assignPitches m ps) =
      ps.take (noteCount m) ++ (notePitches m).drop ps.length := by
  induction m generalizing ps with
  | nil => simp [assignPitches, notePitches, noteCount, notesOf]
  | cons e tl ih =>
      cases ps with
      | nil => simp [assign_nil_pitches]
      | cons p ptl =>
          cases e with
          | note q d =>
              simp [assignPitches, notePitches, noteCount, notesOf, Event.isNote,
                List.take_succ_cons, ih ptl]
          | rest d =>
              simp [assignPitches, notePitches, noteCount, notesOf, Event.isNote]
              exact ih (p :: ptl)

/-!  The `normalize` development. -/

theorem isRest_note (p : P) (d : ℚ) : (Event.note p d).isRest = false := rfl

theorem isRest_rest (d : ℚ) : (Event.rest d : Event P).isRest = true := rfl

theorem duration_note (p : P) (d : ℚ) : (Event.note p d).duration = d := rfl

theorem duration_rest (d : ℚ) : (Event.rest d : Event P).duration = d := rfl

theorem isNullRest_note (p : P) (d : ℚ) : isNullRest (Event.note p d) = false := rfl

theorem isNullRest_rest (d : ℚ) :
    isNullRest (Event.rest d : Event P) = decide (d = 0) := by
  simp [isNullRest, isRest_rest, duration_rest]

theorem dropNull_cons_keep (e : Event P) (tl : List (Event P))
    (h : isNullRest e = false) :
    dropNullRests (e :: tl) = e :: dropNullRests tl := by
  simp [dropNullRests, List.filter_cons, h]

theorem dropNull_cons_drop (e : Event P) (tl : List (Event P))
    (h : isNullRest e = true) :
    dropNullRests (e :: tl) = dropNullRests tl := by
  simp [dropNullRests, List.filter_cons, h]

theorem dropNull_no_null (m : List (Event P)) :
    ∀ e ∈ dropNullRests m, isNullRest e = false := by
  intro e he
  have := (List.mem_filter.mp he).2
  simpa using this

theorem dropNull_eq_self (m : List (Event P))
    (h : ∀ e ∈ m, isNullRest e = false) : dropNullRests m = m := by
  apply List.filter_eq_self.mpr
  intro e he
  simp [h e he]

theorem notesOf_dropNull (m : List (Event P)) :
    notesOf (dropNullRests m) = notesOf m := by
  induction m with
  | nil => rfl
  | cons e tl ih =>
      cases e with
      | note p d =>
          rw [dropNull_cons_keep _ _ (isNullRest_note p d), notesOf_cons_note,
            notesOf_cons_note, ih]
      | rest d =>
          by_cases hd : d = 0
          · rw [dropNull_cons_drop _ _ (by simp [isNullRest_rest, hd]),
              notesOf_cons_rest, ih]
          · rw [dropNull_cons_keep _ _ (by simp [isNullRest_rest, hd]),
              notesOf_cons_rest, notesOf_cons_rest, ih]

theorem totalDuration_dropNull (m : List (Event P)) :
    totalDuration (dropNullRests m) = totalDuration m := by
  induction m with
  | nil => rfl
  | cons e tl ih =>
      cases e with
      | note p d =>
          rw [dropNull_cons_keep _ _ (isNullRest_note p d), totalDuration_cons,
            totalDuration_cons, ih]
      | rest d =>
          by_cases hd : d = 0
          · rw [dropNull_cons_drop _ _ (by simp [isNullRest_rest, hd]),
              totalDuration_cons, ih, duration_rest, hd, zero_add]
          · rw [dropNull_cons_keep _ _ (by simp [isNullRest_rest, hd]),
              totalDuration_cons, totalDuration_cons, ih]

theorem dropNull_mem_of_mem (m : List (Event P)) (e : Event P)
    (he : e ∈ dropNullRests m) : e ∈ m :=
  (List.mem_filter.mp he).1

theorem joinRests_head_isRest (x : Event P) (xs : List (Event P)) :
    ∀ b, (joinRests (x :: xs)).head? = some b → b.isRest = x.isRest := by
  cases x with
  | note p d =>
      intro b hb
      rw [show joinRests (Event.note p d :: xs) = Event.note p d :: joinRests xs
        by simp [joinRests]] at hb
      simp only [List.head?_cons, Option.some.injEq] at hb
      rw [← hb]
  | rest d =>
      cases xs with
      | nil =>
          intro b hb
          rw [show joinRests [Event.rest d] = [Event.rest d] by simp [joinRests]] at hb
          simp only [List.head?_cons, Option.some.injEq] at hb
          rw [← hb]
      | cons y ys =>
          cases y with
          | note q dd =>
              intro b hb
              rw [show joinRests (Event.rest d :: Event.note q dd :: ys) =
                  Event.rest d :: joinRests (Event.note q dd :: ys)
                by simp [joinRests]] at hb
              simp only [List.head?_cons, Option.some.injEq] at hb
              rw [← hb]
          | rest dd =>
              intro b hb
              rw [show joinRests (Event.rest d :: Event.rest dd :: ys) =
                  Event.rest 0 :: joinRests (Event.rest (dd + d) :: ys)
                by simp [joinRests]] at hb
              simp only [List.head?_cons, Option.some.injEq] at hb
              rw [← hb, isRest_rest, isRest_rest]

theorem joinRests_chain (m : List (Event P)) :
    (joinRests m).Chain'
      (fun a b => a.isRest = true → b.isRest = true → a.duration = 0) := by
  induction m using joinRests.induct with
  | case1 => simp [joinRests]
  | case2 p d tl ih =>
      rw [show joinRests (Event.note p d :: tl) = Event.note p d :: joinRests tl
        by simp [joinRests]]
      refine List.chain'_cons'.mpr ⟨?_, ih⟩
      intro b _
      simp [Event.isRest]
  | case3 d => simp [joinRests]
  | case4 d1 p d tl ih =>
      rw [show joinRests (Event.rest d1 :: Event.note p d :: tl) =
          Event.rest d1 :: joinRests (Event.note p d :: tl) by simp [joinRests]]
      refine List.chain'_cons'.mpr ⟨?_, ih⟩
      intro b hb
      have hbr := joinRests_head_isRest (Event.note p d) tl b (by simpa using hb)
      rw [isRest_note] at hbr
      intro _ hb2
      rw [hbr] at hb2
      cases hb2
  | case5 d1 d2 tl ih =>
      rw [show joinRests (Event.rest d1 :: Event.rest d2 :: tl) =
          Event.rest 0 :: joinRests (Event.rest (d2 + d1) :: tl) by simp [joinRests]]
      refine List.chain'_cons'.mpr ⟨?_, ih⟩
      intro b _
      simp [Event.duration]

theorem notesOf_joinRests (m : List (Event P)) :
    notesOf (joinRests m) = notesOf m := by
  induction m using joinRests.induct with
  | case1 => simp [joinRests]
  | case2 p d tl ih => simp [joinRests, notesOf_cons_note, ih]
  | case3 d => simp [joinRests]
  | case4 d1 p d tl ih => simpa [joinRests, notesOf_cons_rest] using ih
  | case5 d1 d2 tl ih => simpa [joinRests, notesOf_cons_rest] using ih

theorem totalDuration_joinRests (m : List (Event P)) :
    totalDuration (joinRests m) = totalDuration m := by
  induction m using joinRests.induct with
  | case1 => simp [joinRests]
  | case2 p d tl ih => simp [joinRests, totalDuration_cons, ih]
  | case3 d => simp [joinRests]
  | case4 d1 p d tl ih =>
      simp only [joinRests, totalDuration_cons] at *
      rw [ih]
  | case5 d1 d2 tl ih =>
      rw [show joinRests (Event.rest d1 :: Event.rest d2 :: tl) =
          Event.rest 0 :: joinRests (Event.rest (d2 + d1) :: tl) by simp [joinRests]]
      simp only [totalDuration_cons] at *
      rw [ih]
      simp [Event.duration]
      ring

theorem joinRests_eq_self (m : List (Event P))
    (h : m.Chain' (fun a b => ¬(a.isRest = true ∧ b.isRest = true))) :
    joinRests m = m := by
  induction m using joinRests.induct with
  | case1 => simp [joinRests]
  | case2 p d tl ih =>
      have := List.chain'_cons'.mp h
      simp [joinRests, ih this.2]
  | case3 d => simp [joinRests]
  | case4 d1 p d tl ih =>
      have := List.chain'_cons'.mp h
      simp [joinRests, ih this.2]
  | case5 d1 d2 tl ih =>
      exfalso
      have := (List.chain'_cons.mp h).1
      simp [Event.isRest] at this

theorem dropNull_chain (m : List (Event P))
    (h : m.Chain' (fun a b => a.isRest = true → b.isRest = true → a.duration = 0)) :
    (dropNullRests m).Chain' (fun a b => ¬(a.isRest = true ∧ b.isRest = true)) := by
  induction m with
  | nil => simp [dropNullRests]
  | cons a tl ih =>
      have h2 := List.chain'_cons'.mp h
      by_cases ha : isNullRest a = true
      · rw [dropNull_cons_drop a tl ha]
        exact ih h2.2
      · have ha' : isNullRest a = false := by simpa using ha
        rw [dropNull_cons_keep a tl ha']
        refine List.chain'_cons'.mpr ⟨?_, ih h2.2⟩
        intro b hb
        by_cases har : a.isRest = true
        · -- a is a kept Rest: its duration is nonzero, so the next original
          -- element cannot be a Rest, and non-rests survive the filter
          have had : ¬(a.duration = 0) := by
            intro had
            rw [isNullRest, har, had] at ha'
            simp at ha'
          cases tl with
          | nil => simp [dropNullRests] at hb
          | cons c tl2 =>
              have hac := h2.1 c (by simp)
              by_cases hcr : c.isRest = true
              · exact absurd (hac har hcr) had
              · have hcr' : c.isRest = false := by simpa using hcr
                have hcn : isNullRest c = false := by
                  rw [isNullRest, hcr']
                  simp
                rw [dropNull_cons_keep c tl2 hcn] at hb
                have hbc : b = c := by
                  have := hb
                  simp at this
                  exact this.symm
                rw [hbc]
                intro hcon
                exact hcr hcon.2
        · intro hcon
          exact har hcon.1

theorem normalize_no_null (m : List (Event P)) :
    ∀ e ∈ normalize m, isNullRest e = false :=
  dropNull_no_null _

theorem normalize_chain (m : List (Event P)) :
    (normalize m).Chain' (fun a b => ¬(a.isRest = true ∧ b.isRest = true)) :=
  dropNull_chain _ (joinRests_chain _)

theorem notesOf_normalize (m : List (Event P)) :
    notesOf (normalize m) = notesOf m := by
  unfold normalize
  rw [notesOf_dropNull, notesOf_joinRests, notesOf_dropNull]

theorem totalDuration_normalize (m : List (Event P)) :
    totalDuration (normalize m) = totalDuration m := by
  unfold normalize
  rw [totalDuration_dropNull, totalDuration_joinRests, totalDuration_dropNull]

theorem normalize_idem (m : List (Event P)) :
    normalize (normalize m) = normalize m := by
  show dropNullRests (joinRests (dropNullRests (normalize m))) = normalize m
  rw [dropNull_eq_self _ (normalize_no_null m),
    joinRests_eq_self _ (normalize_chain m),
    dropNull_eq_self _ (normalize_no_null m)]

/-- C6: `normalize` is idempotent — normalizing an already-normalized
melody leaves it unchanged — and after `normalize` the melody contains no
zero-duration Rest and no two consecutive Rest events, while the Note
events, their order, and the total duration are preserved. -/
theorem claim_C6_normalize (m : List (Event P)) :
    normalize (normalize m) = normalize m ∧
    (∀ e ∈ normalize m, ¬(e.isRest = true ∧ e.duration = 0)) ∧
    (normalize m).Chain' (fun a b => ¬(a.isRest = true ∧ b.isRest = true)) ∧
    notesOf (normalize m) = notesOf m ∧
    totalDuration (normalize m) = totalDuration m := by
  refine ⟨normalize_idem m, ?_, normalize_chain m, notesOf_normalize m,
    totalDuration_normalize m⟩
  intro e he hcon
  have := normalize_no_null m e he
  rw [isNullRest, hcon.1, hcon.2] at this
  simp at this

/-!  Permutations (`random.shuffle`) preserve the quantities tracked by
the generator, and `normalize` preserves grid multiples. -/

theorem noteCount_perm {a b : List (Event P)} (h : List.Perm a b) :
    noteCount a = noteCount b := by
  unfold noteCount notesOf
  exact (h.filter _).length_eq

theorem totalDuration_perm {a b : List (Event P)} (h : List.Perm a b) :
    totalDuration a = totalDuration b := by
  unfold totalDuration
  exact (h.map Event.duration).sum_eq

theorem joinRests_mult (gs : ℚ) (m : List (Event P))
    (h : ∀ e ∈ m, ∃ n : ℕ, e.duration = (n : ℚ) * gs) :
    ∀ e ∈ joinRests m, ∃ n : ℕ, e.duration = (n : ℚ) * gs := by
  induction m using joinRests.induct with
  | case1 => simp [joinRests]
  | case2 p d tl ih =>
      rw [show joinRests (Event.note p d :: tl) = Event.note p d :: joinRests tl
        by simp [joinRests]]
      intro e he
      rcases List.mem_cons.mp he with he | he
      · exact he ▸ h _ (by simp)
      · exact ih (fun x hx => h x (by simp [hx])) e he
  | case3 d =>
      rw [show joinRests [Event.rest d] = [Event.rest d] by simp [joinRests]]
      exact h
  | case4 d1 p d tl ih =>
      rw [show joinRests (Event.rest d1 :: Event.note p d :: tl) =
          Event.rest d1 :: joinRests (Event.note p d :: tl) by simp [joinRests]]
      intro e he
      rcases List.mem_cons.mp he with he | he
      · exact he ▸ h _ (by simp)
      · exact ih (fun x hx => h x (List.mem_cons_of_mem _ hx)) e he
  | case5 d1 d2 tl ih =>
      rw [show joinRests (Event.rest d1 :: Event.rest d2 :: tl) =
          Event.rest 0 :: joinRests (Event.rest (d2 + d1) :: tl) by simp [joinRests]]
      intro e he
      rcases List.mem_cons.mp he with he | he
      · exact ⟨0, by simp [he, duration_rest]⟩
      · refine ih ?_ e he
        intro x hx
        rcases List.mem_cons.mp hx with hx | hx
        · obtain ⟨n1, hn1⟩ := h (Event.rest d1) (by simp)
          obtain ⟨n2, hn2⟩ := h (Event.rest d2) (by simp)
          rw [duration_rest] at hn1 hn2
          refine ⟨n2 + n1, ?_⟩
          rw [hx, duration_rest, hn1, hn2]
          push_cast
          ring
        · exact h x (by simp [hx])

theorem dropNull_mult (gs : ℚ) (m : List (Event P))
    (h : ∀ e ∈ m, ∃ n : ℕ, e.duration = (n : ℚ) * gs) :
    ∀ e ∈ dropNullRests m, ∃ n : ℕ, e.duration = (n : ℚ) * gs :=
  fun e he => h e (dropNull_mem_of_mem m e he)

theorem normalize_mult (gs : ℚ) (m : List (Event P))
    (h : ∀ e ∈ m, ∃ n : ℕ, e.duration = (n : ℚ) * gs) :
    ∀ e ∈ normalize m, ∃ n : ℕ, e.duration = (n : ℚ) * gs :=
  dropNull_mult gs _ (joinRests_mult gs _ (dropNull_mult gs _ h))

/-!  `RevertPitch` is an involution. -/

theorem assign_no_notes (m : List (Event P)) (ps : List P)
    (h : noteCount m = 0) : assignPitches m ps = m := by
  induction m generalizing ps with
  | nil => simp [assignPitches]
  | cons e tl ih =>
      cases ps with
      | nil => exact assign_nil_pitches _
      | cons p ptl =>
          cases e with
          | note q d => rw [noteCount_cons_note] at h; omega
          | rest d =>
              rw [noteCount_cons_rest] at h
              simp only [assignPitches]
              rw [ih _ h]

theorem assign_assign (m : List (Event P)) (ps qs : List P)
    (h : noteCount m ≤ qs.length) :
    assignPitches (assignPitches m ps) qs = assignPitches m qs := by
  induction m generalizing ps qs with
  | nil => simp [assignPitches]
  | cons e tl ih =>
      cases ps with
      | nil => rw [assign_nil_pitches]
      | cons p ptl =>
          cases e with
          | note w d =>
              rw [noteCount_cons_note] at h
              cases qs with
              | nil => simp only [List.length_nil] at h; omega
              | cons q qtl =>
                  simp only [assignPitches]
                  rw [ih ptl qtl (by simpa using h)]
          | rest d =>
              rw [noteCount_cons_rest] at h
              cases qs with
              | nil =>
                  simp only [List.length_nil] at h
                  rw [assign_nil_pitches, assign_nil_pitches]
                  simp only [assignPitches]
                  rw [assign_no_notes tl (p :: ptl) (by omega)]
              | cons q qtl =>
                  simp only [assignPitches]
                  rw [ih (p :: ptl) (q :: qtl) (by simpa using h)]

theorem assign_self (m : List (Event P)) :
    assignPitches m (notePitches m) = m := by
  induction m with
  | nil => simp [assignPitches]
  | cons e tl ih =>
      cases e with
      | note p d =>
          simp only [notePitches, assignPitches]
          rw [ih]
      | rest d =>
          simp only [notePitches]
          cases htl : notePitches tl with
          | nil =>
              rw [assign_nil_pitches]
          | cons q qtl =>
              simp only [assignPitches]
              rw [← htl, ih]

theorem RevertPitch_of_ge (m : List (Event P)) (h : ¬ noteCount m < 2) :
    RevertPitch m = assignPitches m (notePitches m).reverse := by
  rw [RevertPitch, if_neg h]

/-- C10: `RevertPitch` is deterministic and self-inverse: for every melody
(any length, including fewer than 2 Notes), applying it twice returns the
original melody by value. -/
theorem claim_C10_revert_involution (m : List (Event P)) :
    RevertPitch (RevertPitch m) = m := by
  by_cases hlen : noteCount m < 2
  · have hin : RevertPitch m = m := by rw [RevertPitch, if_pos hlen]
    rw [hin, hin]
  · have h1 := RevertPitch_of_ge m hlen
    have hcount : noteCount (RevertPitch m) = noteCount m := by
      rw [h1]; exact assign_noteCount _ _
    have hlen2 : ¬ noteCount (RevertPitch m) < 2 := by rw [hcount]; exact hlen
    have hp : notePitches (RevertPitch m) = (notePitches m).reverse := by
      rw [h1, assign_notePitches]
      have e1 : (notePitches m).reverse.length = noteCount m := by
        rw [List.length_reverse, notePitches_length]
      rw [e1, ← notePitches_length m, List.drop_length, List.append_nil,
        ← List.length_reverse, List.take_length]
    rw [RevertPitch_of_ge _ hlen2, hp, List.reverse_reverse, h1,
      assign_assign m _ _ (by rw [notePitches_length])]
    exact assign_self m

/-- C3: the claim says `ShiftPitch` and `ShufflePitch` are no-ops for
melodies with fewer than 2 Notes; in the code the unconditional
`random.randint(1, melody.length - 1)` (resp. `randint(2, melody.length)`)
raises `ValueError` on an empty range BEFORE the `melody.length < 2` guard
is reached, so both calls fail instead of returning the melody, in every
amount mode. -/
theorem claim_C3_short_melody_raises (m : List (Event P)) (mode : AmountMode)
    (amount : Option ℤ) (rA : ℤ) (sel sel2 : List ℕ) (h : noteCount m < 2) :
    ShiftPitch m mode amount rA = Except.error "empty range for randrange()" ∧
    ShufflePitch m mode amount rA sel sel2 =
      Except.error "empty range for randrange()" := by
  have h1 : (noteCount m : ℤ) - 1 < 1 := by omega
  have h2 : (noteCount m : ℤ) < 2 := by omega
  constructor
  · rw [ShiftPitch, pyRandint, if_pos h1]
  · rw [ShufflePitch, pyRandint, if_pos h2]

theorem claim_C3_short_melody_raises_witness :
    noteCount [Event.note (0 : ℕ) (1 : ℚ)] < 2 ∧
    ShiftPitch [Event.note (0 : ℕ) (1 : ℚ)] AmountMode.Minimum none 1 =
      Except.error "empty range for randrange()" ∧
    ShufflePitch [Event.note (0 : ℕ) (1 : ℚ)] AmountMode.Minimum none 1 [] [] =
      Except.error "empty range for randrange()" :=
  ⟨by decide,
    (claim_C3_short_melody_raises _ AmountMode.Minimum none 1 [] [] (by decide)).1,
    (claim_C3_short_melody_raises _ AmountMode.Minimum none 1 [] [] (by decide)).2⟩

/-- C4: the claim says a successful `evaluate()` result is cached and
returned by subsequent calls without re-invoking the operation, including
an empty melody.  The code stores the empty result, but `if not
self._value:` treats the cached empty melody as unset: the second
`evaluate()` of a node whose operation produced the empty melody invokes
the operation again (its trace contains a fresh `invoke`/`success` pair
instead of being empty). -/
theorem claim_C4_empty_result_reevaluated :
    (evalNode opsEmpty (FNode.mk 0 7 FArgs.nil none)).1 = Except.ok [] ∧
    (evalNode opsEmpty (FNode.mk 0 7 FArgs.nil none)).2.1 =
      FNode.mk 0 7 FArgs.nil (some []) ∧
    (evalNode opsEmpty ((evalNode opsEmpty (FNode.mk 0 7 FArgs.nil none)).2.1)).2.2 =
      [FEvent.invoke 0, FEvent.success 0] :=
  ⟨rfl, rfl, rfl⟩

/-- C9 (counterexample): for a node (id 0) whose dependency node (id 1)
fails, the failure propagates and nothing is cached, but the parent's
on-error hook is NOT invoked — the dependency is evaluated in the kwargs
comprehension before the `try` block — contradicting the claim that "the
on-error hook is invoked". -/
theorem claim_C9_counterexample :
    (evalNode opsDep nodeDep).1 = Except.error "boom" ∧
    (evalNode opsDep nodeDep).2.1 = nodeDep ∧
    (evalNode opsDep nodeDep).2.2 = [FEvent.invoke 1, FEvent.errorHook 1] ∧
    FEvent.errorHook 0 ∉ (evalNode opsDep nodeDep).2.2 :=
  ⟨rfl, rfl, rfl, by decide⟩

/-- C9 (amended): when `evaluate()` fails, the failure propagates as the
node's own failure, the memo slot is unchanged (so a later `evaluate()`
re-attempts), and the node's on-error hook fires exactly when the node's
OWN bound operation raised — i.e. when the argument resolution succeeded —
not when a dependency raised. -/
theorem claim_C9_error_propagation
    (ops : ℕ → List (List (Event P)) → Except String (List (Event P)))
    (i op : ℕ) (args : FArgs P) (cache : Option (List (Event P)))
    (e : String) (n2 : FNode P) (tr : List FEvent)
    (h : evalNode ops (FNode.mk i op args cache) = (Except.error e, n2, tr)) :
    n2.cache = cache ∧
    (∀ vs args3 tr3, evalArgs ops args = (Except.ok vs, args3, tr3) →
      tr = tr3 ++ [FEvent.invoke i, FEvent.errorHook i]) := by
  rw [evalNode] at h
  by_cases ht : truthy cache
  · rw [if_pos ht] at h
    simp at h
  · rw [if_neg ht] at h
    rcases hEA : evalArgs ops args with ⟨res, args2, tr0⟩
    rw [hEA] at h
    cases res with
    | error e2 =>
        simp only [Prod.mk.injEq] at h
        refine ⟨?_, ?_⟩
        · rw [← h.2.1, FNode.cache]
        · intro vs args3 tr3 hok
          simp at hok
    | ok vs0 =>
        dsimp only at h
        cases hop : ops op vs0 with
        | error e2 =>
            rw [hop] at h
            simp only [Prod.mk.injEq] at h
            refine ⟨?_, ?_⟩
            · rw [← h.2.1, FNode.cache]
            · intro vs args3 tr3 hok
              simp only [Prod.mk.injEq] at hok
              rw [← h.2.2, ← hok.2.2]
        | ok mres =>
            rw [hop] at h
            simp at h

theorem claim_C9_error_propagation_witness :
    (FNode.mk 3 0 FArgs.nil (none : Option (List (Event ℕ)))).cache = none ∧
    (∀ vs args3 tr3,
      evalArgs opsFail FArgs.nil = (Except.ok vs, args3, tr3) →
      [FEvent.invoke 3, FEvent.errorHook 3] =
        tr3 ++ [FEvent.invoke 3, FEvent.errorHook 3]) :=
  claim_C9_error_propagation opsFail 3 0 FArgs.nil none "boom"
    (FNode.mk 3 0 FArgs.nil none) [FEvent.invoke 3, FEvent.errorHook 3] rfl

/-!  `ChangePitch`: the selection of notes is `random.choices`, i.e. WITH
replacement, so repeated indices overwrite the same Note and other Notes
are never touched. -/

theorem notePitches_setNotePitch (m : List (Event P)) (i : ℕ) (p : P) :
    notePitches (setNotePitch m i p) = (notePitches m).set i p := by
  induction m generalizing i with
  | nil => simp [setNotePitch, notePitches]
  | cons e tl ih =>
      cases e with
      | note q d =>
          cases i with
          | zero => simp [setNotePitch, notePitches]
          | succ j => simp [setNotePitch, notePitches, ih]
      | rest d => simp [setNotePitch, notePitches, ih]

theorem setNotePitch_map_duration (m : List (Event P)) (i : ℕ) (p : P) :
    (setNotePitch m i p).map Event.duration = m.map Event.duration := by
  induction m generalizing i with
  | nil => simp [setNotePitch]
  | cons e tl ih =>
      cases e with
      | note q d =>
          cases i with
          | zero => simp [setNotePitch, Event.duration]
          | succ j => simp [setNotePitch, Event.duration, ih]
      | rest d => simp [setNotePitch, Event.duration, ih]

theorem setNotePitch_noteCount (m : List (Event P)) (i : ℕ) (p : P) :
    noteCount (setNotePitch m i p) = noteCount m := by
  induction m generalizing i with
  | nil => simp [setNotePitch]
  | cons e tl ih =>
      cases e with
      | note q d =>
          cases i with
          | zero => simp [setNotePitch, noteCount_cons_note]
          | succ j => simp [setNotePitch, noteCount_cons_note, ih]
      | rest d => simp [setNotePitch, noteCount_cons_rest, ih]

theorem foldl_setNotePitch_pitches (ws : List (ℕ × P)) (m : List (Event P)) :
    notePitches (ws.foldl (fun mm w => setNotePitch mm w.1 w.2) m) =
      ws.foldl (fun l w => l.set w.1 w.2) (notePitches m) := by
  induction ws generalizing m with
  | nil => simp
  | cons w tl ih =>
      simp only [List.foldl_cons]
      rw [ih, notePitches_setNotePitch]

theorem foldl_setNotePitch_duration (ws : List (ℕ × P)) (m : List (Event P)) :
    (ws.foldl (fun mm w => setNotePitch mm w.1 w.2) m).map Event.duration =
      m.map Event.duration := by
  induction ws generalizing m with
  | nil => simp
  | cons w tl ih =>
      simp only [List.foldl_cons]
      rw [ih, setNotePitch_map_duration]

theorem foldl_setNotePitch_noteCount (ws : List (ℕ × P)) (m : List (Event P)) :
    noteCount (ws.foldl (fun mm w => setNotePitch mm w.1 w.2) m) = noteCount m := by
  induction ws generalizing m with
  | nil => simp
  | cons w tl ih =>
      simp only [List.foldl_cons]
      rw [ih, setNotePitch_noteCount]

theorem foldl_set_get?_not_mem {α : Type} (ws : List (ℕ × α)) (l : List α) (i : ℕ)
    (h : ∀ w ∈ ws, w.1 ≠ i) :
    (ws.foldl (fun acc w => acc.set w.1 w.2) l).get? i = l.get? i := by
  induction ws generalizing l with
  | nil => simp
  | cons w tl ih =>
      simp only [List.foldl_cons]
      rw [ih _ (fun x hx => h x (by simp [hx])),
        List.get?_set_ne _ _ (h w (by simp))]

theorem foldl_set_get?_mem {α : Type} (ws : List (ℕ × α)) (l : List α) (i : ℕ)
    (hi : i < l.length) (hmem : i ∈ ws.map Prod.fst) :
    ∃ p, p ∈ ws.map Prod.snd ∧
      (ws.foldl (fun acc w => acc.set w.1 w.2) l).get? i = some p := by
  induction ws generalizing l with
  | nil => simp at hmem
  | cons w tl ih =>
      simp only [List.foldl_cons]
      by_cases h2 : i ∈ tl.map Prod.fst
      · obtain ⟨p, hp, hg⟩ := ih (l.set w.1 w.2) (by simpa using hi) h2
        exact ⟨p, by simp [hp], hg⟩
      · have hw : w.1 = i := by
          simp only [List.map_cons, List.mem_cons] at hmem
          rcases hmem with hmem | hmem
          · exact hmem.symm
          · exact absurd hmem h2
        have hrest : ∀ x ∈ tl, x.1 ≠ i := by
          intro x hx heq
          exact h2 (List.mem_map.mpr ⟨x, hx, heq⟩)
        rw [foldl_set_get?_not_mem tl _ i hrest, hw,
          List.get?_set_eq_of_lt _ hi]
        exact ⟨w.2, by simp, rfl⟩

/-- C8 (counterexample): `ChangePitch` with `amount_mode = Maximum` on a
two-note melody, with the `random.choices` stream picking note 0 twice:
note 1 keeps its original pitch 0, which is not in the supplied pitch set
`[1]` — so the selection is NOT a sample without replacement and not every
Note is replaced. -/
theorem claim_C8_counterexample :
    ChangePitch 99 [Event.note 0 (1 : ℚ), Event.note 0 1] AmountMode.Maximum none
      (some [1]) 0 [0, 0] (fun _ => 0) =
      Except.ok [Event.note 1 1, Event.note 0 1] ∧
    (0 : ℕ) ∉ [(1 : ℕ)] :=
  ⟨rfl, by decide⟩

/-- C8 (amended): `ChangePitch`'s selection is `random.choices` — WITH
replacement — over the Notes.  With `amount_mode = Maximum` (`amount =
melody.length`), every selected index gets a pitch from the pitch pool,
every unselected Note keeps its pitch, counts and durations are preserved;
since indices may repeat, Notes outside the selection (possible even at
Maximum) are not replaced. -/
theorem claim_C8_changepitch_targets [DecidableEq P] (dflt : P)
    (m : List (Event P)) (pitchesP : Option (List P)) (rA : ℤ) (sel : List ℕ)
    (pickP : ℕ → ℕ) (m2 : List (Event P))
    (hpick : ∀ j, pickP j < (pitchPool m pitchesP).length)
    (hok : ChangePitch dflt m AmountMode.Maximum none pitchesP rA sel pickP =
      Except.ok m2) :
    noteCount m2 = noteCount m ∧
    m2.map Event.duration = m.map Event.duration ∧
    ∀ i < noteCount m,
      (i ∉ sel.take (noteCount m) →
        (notePitches m2).get? i = (notePitches m).get? i) ∧
      (i ∈ sel.take (noteCount m) →
        ∃ p ∈ pitchPool m pitchesP, (notePitches m2).get? i = some p) := by
  rw [ChangePitch] at hok
  simp only [Int.toNat_natCast, Except.ok.injEq] at hok
  subst hok
  refine ⟨foldl_setNotePitch_noteCount _ _, foldl_setNotePitch_duration _ _, ?_⟩
  intro i hilt
  have hlen : (sel.take (noteCount m)).length ≤
      ((List.range (noteCount m)).map
        (fun j => (pitchPool m pitchesP).getD (pickP j) dflt)).length := by
    simp [List.length_take]
  constructor
  · intro hni
    rw [foldl_setNotePitch_pitches]
    apply foldl_set_get?_not_mem
    intro w hw heq
    exact hni (heq ▸ (List.of_mem_zip hw).1)
  · intro hyes
    rw [foldl_setNotePitch_pitches]
    have hmem : i ∈ ((sel.take (noteCount m)).zip
        ((List.range (noteCount m)).map
          (fun j => (pitchPool m pitchesP).getD (pickP j) dflt))).map Prod.fst := by
      rw [List.map_fst_zip _ _ hlen]
      exact hyes
    obtain ⟨p, hp, hg⟩ := foldl_set_get?_mem _ _ i
      (by rw [notePitches_length]; exact hilt) hmem
    refine ⟨p, ?_, hg⟩
    simp only [List.mem_map] at hp
    obtain ⟨w, hw, hwp⟩ := hp
    have := (List.of_mem_zip hw).2
    simp only [List.mem_map] at this
    obtain ⟨j, _, hj⟩ := this
    rw [← hwp, ← hj]
    rw [List.getD_eq_getElem _ dflt (hpick j)]
    exact List.getElem_mem (hpick j)

theorem claim_C8_changepitch_targets_witness :
    (∀ j : ℕ, (0 : ℕ) < (pitchPool [Event.note (5 : ℕ) (1 : ℚ)] (some [7])).length) ∧
    noteCount [Event.note (7 : ℕ) (1 : ℚ)] = noteCount [Event.note (5 : ℕ) (1 : ℚ)] ∧
    [Event.note (7 : ℕ) (1 : ℚ)].map Event.duration =
      [Event.note (5 : ℕ) (1 : ℚ)].map Event.duration ∧
    ∀ i < noteCount [Event.note (5 : ℕ) (1 : ℚ)],
      (i ∉ [0].take (noteCount [Event.note (5 : ℕ) (1 : ℚ)]) →
        (notePitches [Event.note (7 : ℕ) (1 : ℚ)]).get? i =
          (notePitches [Event.note (5 : ℕ) (1 : ℚ)]).get? i) ∧
      (i ∈ [0].take (noteCount [Event.note (5 : ℕ) (1 : ℚ)]) →
        ∃ p ∈ pitchPool [Event.note (5 : ℕ) (1 : ℚ)] (some [7]),
          (notePitches [Event.note (7 : ℕ) (1 : ℚ)]).get? i = some p) :=
  ⟨fun _ => by decide,
    claim_C8_changepitch_targets 9 [Event.note 5 (1 : ℚ)] (some [7]) 0 [0]
      (fun _ => 0) [Event.note 7 (1 : ℚ)]
      (by
        intro _j
        change (0 : ℕ) < (pitchPool [Event.note (5 : ℕ) (1 : ℚ)] (some [7])).length
        decide)
      rfl⟩

/-!  Arithmetic of the slot grid. -/

theorem pyInt_intCast (z : ℤ) : pyInt (z : ℚ) = z := by
  rw [pyInt, Rat.intCast_num, Rat.intCast_den]
  exact Int.tdiv_one z

theorem pairGaps_cons_cons (a b : ℕ) (tl : List ℕ) :
    pairGaps (a :: b :: tl) = (b - a) :: pairGaps (b :: tl) := rfl

theorem pairGaps_singleton (a : ℕ) : pairGaps [a] = [] := rfl

theorem pairGaps_length (a : ℕ) (l : List ℕ) :
    (pairGaps (a :: l)).length = l.length := by
  induction l generalizing a with
  | nil => simp [pairGaps_singleton]
  | cons b tl ih => rw [pairGaps_cons_cons, List.length_cons, ih, List.length_cons]

theorem chain_lt_le_getLastD (a : ℕ) (l : List ℕ) (h : List.Chain (· < ·) a l) :
    a ≤ l.getLastD a := by
  induction l generalizing a with
  | nil => simp
  | cons b tl ih =>
      obtain ⟨hab, hbt⟩ := List.chain_cons.mp h
      rw [List.getLastD_cons]
      exact le_trans (le_of_lt hab) (ih b hbt)

theorem pairGaps_sum (a : ℕ) (l : List ℕ) (h : List.Chain (· < ·) a l) :
    (pairGaps (a :: l)).sum = l.getLastD a - a := by
  induction l generalizing a with
  | nil => simp [pairGaps_singleton]
  | cons b tl ih =>
      obtain ⟨hab, hbt⟩ := List.chain_cons.mp h
      rw [pairGaps_cons_cons, List.sum_cons, ih b hbt, List.getLastD_cons]
      have hble := chain_lt_le_getLastD b tl hbt
      omega

theorem pairGaps_pos (a : ℕ) (l : List ℕ) (h : List.Chain (· < ·) a l) :
    ∀ g ∈ pairGaps (a :: l), 0 < g := by
  induction l generalizing a with
  | nil => simp [pairGaps_singleton]
  | cons b tl ih =>
      obtain ⟨hab, hbt⟩ := List.chain_cons.mp h
      rw [pairGaps_cons_cons]
      intro g hg
      rcases List.mem_cons.mp hg with hg | hg
      · omega
      · exact ih b hbt g hg

/-!  The per-gap segment construction. -/

theorem buildSegments_noteCount (gs : ℚ) (isR : Bool) (ch : ℕ → ℕ → ℕ) (dflt : P)
    (k : ℕ) (gaps : List ℕ) :
    noteCount (buildSegments gs isR ch dflt k gaps) = gaps.length := by
  induction gaps generalizing k with
  | nil => simp [buildSegments, noteCount, notesOf]
  | cons g rest ih =>
      simp only [buildSegments]
      by_cases h0 : (g - (if g = 0 then 1 else if isR then ch k g else g)) = 0
      · rw [if_pos h0, List.nil_append, noteCount_cons_note, ih]
        rfl
      · rw [if_neg h0, noteCount_cons_note, List.singleton_append,
          noteCount_cons_rest, ih]
        rfl

theorem buildSegments_mult (gs : ℚ) (isR : Bool) (ch : ℕ → ℕ → ℕ) (dflt : P)
    (k : ℕ) (gaps : List ℕ) :
    ∀ e ∈ buildSegments gs isR ch dflt k gaps,
      ∃ n : ℕ, e.duration = (n : ℚ) * gs := by
  induction gaps generalizing k with
  | nil => simp [buildSegments]
  | cons g rest ih =>
      simp only [buildSegments]
      intro e he
      rcases List.mem_cons.mp he with he | he
      · exact ⟨_, by rw [he, duration_note]⟩
      · rcases List.mem_append.mp he with he | he
        · by_cases h0 : (g - (if g = 0 then 1 else if isR then ch k g else g)) = 0
          · rw [if_pos h0] at he
            simp at he
          · rw [if_neg h0] at he
            simp only [List.mem_singleton] at he
            exact ⟨_, by rw [he, duration_rest]⟩
        · exact ih (k + 1) e he

theorem buildSegments_total (gs : ℚ) (isR : Bool) (ch : ℕ → ℕ → ℕ) (dflt : P)
    (k : ℕ) (gaps : List ℕ) (hpos : ∀ g ∈ gaps, 0 < g)
    (hch : ∀ k2 g, 0 < g → 0 < ch k2 g ∧ ch k2 g ≤ g) :
    totalDuration (buildSegments gs isR ch dflt k gaps) = (gaps.sum : ℚ) * gs := by
  induction gaps generalizing k with
  | nil => simp [buildSegments, totalDuration]
  | cons g rest ih =>
      have hgpos : 0 < g := hpos g (by simp)
      have hng : 0 < (if g = 0 then 1 else if isR then ch k g else g) ∧
          (if g = 0 then 1 else if isR then ch k g else g) ≤ g := by
        rw [if_neg (Nat.pos_iff_ne_zero.mp hgpos)]
        by_cases hisR : isR = true
        · rw [if_pos hisR]
          exact hch k g hgpos
        · rw [if_neg hisR]
          exact ⟨hgpos, le_refl g⟩
      simp only [buildSegments]
      generalize hgen : (if g = 0 then 1 else if isR then ch k g else g) = ng at hng ⊢
      by_cases h0 : g - ng = 0
      · rw [h0, if_pos rfl, List.nil_append, totalDuration_cons, duration_note,
          ih (k + 1) (fun x hx => hpos x (by simp [hx]))]
        have : ng = g := by omega
        rw [this, List.sum_cons]
        push_cast
        ring
      · rw [if_neg h0, List.singleton_append, totalDuration_cons, duration_note,
          totalDuration_cons, duration_rest,
          ih (k + 1) (fun x hx => hpos x (by simp [hx])), List.sum_cons]
        have hle : ng ≤ g := hng.2
        push_cast [Nat.cast_sub hle]
        ring

/-!  Replicated notes and rests (the Minimum/Fixed branch). -/

theorem noteCount_replicate_note (n : ℕ) (p : P) (d : ℚ) :
    noteCount (List.replicate n (Event.note p d)) = n := by
  induction n with
  | zero => simp [noteCount, notesOf]
  | succ k ih => rw [List.replicate_succ, noteCount_cons_note, ih]

theorem noteCount_replicate_rest (n : ℕ) (d : ℚ) :
    noteCount (List.replicate n (Event.rest d) : List (Event P)) = 0 := by
  induction n with
  | zero => simp [noteCount, notesOf]
  | succ k ih => rw [List.replicate_succ, noteCount_cons_rest, ih]

theorem totalDuration_replicate (n : ℕ) (e : Event P) :
    totalDuration (List.replicate n e) = (n : ℚ) * e.duration := by
  induction n with
  | zero => simp [totalDuration]
  | succ k ih =>
      rw [List.replicate_succ, totalDuration_cons, ih]
      push_cast
      ring

/-!  The rational GCD (spec-modelled `fraction_gcd`) divides every element
it is folded over, hence the total duration. -/

theorem QDvd_trans {g x d : ℚ} (h1 : QDvd g x) (h2 : QDvd x d) : QDvd g d := by
  obtain ⟨w, hw⟩ := h1
  obtain ⟨z, hz⟩ := h2
  exact ⟨z * w, by rw [hz, hw]; push_cast; ring⟩

theorem fractionGcd_qdvd_left (a b : ℚ) : QDvd (fractionGcd a b) a := by
  by_cases hg : Int.gcd a.num b.num = 0
  · have ha : a.num = 0 := (Int.gcd_eq_zero_iff.mp hg).1
    have : a = 0 := Rat.zero_iff_num_zero.mpr ha
    exact ⟨0, by simp [this]⟩
  · obtain ⟨c, hc⟩ :=
      (Int.gcd_dvd_left : ((Int.gcd a.num b.num : ℕ) : ℤ) ∣ a.num)
    obtain ⟨e, he⟩ := Nat.dvd_lcm_left a.den b.den
    refine ⟨c * e, ?_⟩
    have hden : (a.den : ℚ) ≠ 0 := by
      exact_mod_cast a.den_nz
    have he0 : e ≠ 0 := by
      intro h0
      have hlnz := Nat.lcm_ne_zero a.den_nz b.den_nz
      rw [he, h0, Nat.mul_zero] at hlnz
      exact hlnz rfl
    have heq : (e : ℚ) ≠ 0 := by exact_mod_cast he0
    have hnum : (a.num : ℚ) = a * (a.den : ℚ) :=
      (div_eq_iff hden).mp (Rat.num_div_den a)
    have hcq : (a.num : ℚ) = ((Int.gcd a.num b.num : ℕ) : ℚ) * (c : ℚ) := by
      exact_mod_cast hc
    have key : a * (a.den : ℚ) = ((Int.gcd a.num b.num : ℕ) : ℚ) * (c : ℚ) :=
      hnum.symm.trans hcq
    rw [fractionGcd, he]
    push_cast
    field_simp
    linear_combination (e : ℚ) * key

theorem fractionGcd_qdvd_right (a b : ℚ) : QDvd (fractionGcd a b) b := by
  by_cases hg : Int.gcd a.num b.num = 0
  · have hb : b.num = 0 := (Int.gcd_eq_zero_iff.mp hg).2
    have : b = 0 := Rat.zero_iff_num_zero.mpr hb
    exact ⟨0, by simp [this]⟩
  · obtain ⟨c, hc⟩ :=
      (Int.gcd_dvd_right : ((Int.gcd a.num b.num : ℕ) : ℤ) ∣ b.num)
    obtain ⟨e, he⟩ := Nat.dvd_lcm_right a.den b.den
    refine ⟨c * e, ?_⟩
    have hden : (b.den : ℚ) ≠ 0 := by
      exact_mod_cast b.den_nz
    have he0 : e ≠ 0 := by
      intro h0
      have hlnz := Nat.lcm_ne_zero a.den_nz b.den_nz
      rw [he, h0, Nat.mul_zero] at hlnz
      exact hlnz rfl
    have heq : (e : ℚ) ≠ 0 := by exact_mod_cast he0
    have hnum : (b.num : ℚ) = b * (b.den : ℚ) :=
      (div_eq_iff hden).mp (Rat.num_div_den b)
    have hcq : (b.num : ℚ) = ((Int.gcd a.num b.num : ℕ) : ℚ) * (c : ℚ) := by
      exact_mod_cast hc
    have key : b * (b.den : ℚ) = ((Int.gcd a.num b.num : ℕ) : ℚ) * (c : ℚ) :=
      hnum.symm.trans hcq
    rw [fractionGcd, he]
    push_cast
    field_simp
    linear_combination (e : ℚ) * key

theorem foldl_fractionGcd_qdvd (ds : List ℚ) (d : ℚ) :
    ∀ x ∈ d :: ds, QDvd (ds.foldl fractionGcd d) x := by
  induction ds generalizing d with
  | nil =>
      intro x hx
      simp only [List.mem_singleton] at hx
      exact ⟨1, by rw [hx, List.foldl_nil]; push_cast; ring⟩
  | cons b tl ih =>
      intro x hx
      rw [List.foldl_cons]
      have hd : QDvd (tl.foldl fractionGcd (fractionGcd d b)) (fractionGcd d b) :=
        ih (fractionGcd d b) (fractionGcd d b) (List.mem_cons_self _ _)
      rcases List.mem_cons.mp hx with hx | hx
      · rw [hx]
        exact QDvd_trans hd (fractionGcd_qdvd_left d b)
      · rcases List.mem_cons.mp hx with hx | hx
        · rw [hx]
          exact QDvd_trans hd (fractionGcd_qdvd_right d b)
        · exact ih (fractionGcd d b) x (List.mem_cons_of_mem _ hx)

theorem qdvd_sum (g : ℚ) (l : List ℚ) (h : ∀ x ∈ l, QDvd g x) : QDvd g l.sum := by
  induction l with
  | nil => exact ⟨0, by simp⟩
  | cons a tl ih =>
      obtain ⟨za, hza⟩ := h a (by simp)
      obtain ⟨zt, hzt⟩ := ih (fun x hx => h x (by simp [hx]))
      exact ⟨za + zt, by rw [List.sum_cons, hza, hzt]; push_cast; ring⟩

theorem total_qdvd_gridSize (m : List (Event P)) :
    ∃ z : ℤ, totalDuration m = (z : ℚ) * gridSize m := by
  rw [totalDuration, gridSize]
  cases hm : m.map Event.duration with
  | nil => exact ⟨0, by simp⟩
  | cons d ds =>
      exact qdvd_sum _ _ (fun x hx => foldl_fractionGcd_qdvd ds d x hx)

theorem noteCount_normalize (m : List (Event P)) :
    noteCount (normalize m) = noteCount m := by
  rw [noteCount, notesOf_normalize, noteCount]

/-- What the Random/Maximum rhythm branch produces: `idxs.length` Notes,
total duration `slots * gs`, all durations grid multiples. -/
theorem randmax_branch_spec (gs : ℚ) (isR : Bool) (ch : ℕ → ℕ → ℕ) (dflt : P)
    (idxs : List ℕ) (slots : ℕ) (mel : List (Event P))
    (hmel : mel =
      (if (((idxs ++ [slots]).headD 0 : ℕ) : ℚ) * gs ≠ 0 then
        [Event.rest ((((idxs ++ [slots]).headD 0 : ℕ) : ℚ) * gs)]
      else ([] : List (Event P))) ++
      buildSegments gs isR ch dflt 0 (pairGaps (idxs ++ [slots])))
    (hsor : idxs.Sorted (· < ·)) (hlt : ∀ i ∈ idxs, i < slots)
    (hne : idxs ≠ [])
    (hch : ∀ k g, 0 < g → 0 < ch k g ∧ ch k g ≤ g) :
    noteCount mel = idxs.length ∧ totalDuration mel = (slots : ℚ) * gs ∧
    ∀ e ∈ mel, ∃ n : ℕ, e.duration = (n : ℚ) * gs := by
  obtain ⟨a, t, rfl⟩ : ∃ a t, idxs = a :: t := by
    cases idxs with
    | nil => exact absurd rfl hne
    | cons a t => exact ⟨a, t, rfl⟩
  have hpw : List.Pairwise (· < ·) ((a :: t) ++ [slots]) :=
    List.pairwise_append.mpr ⟨hsor, List.pairwise_singleton _ _,
      fun x hx y hy => by rw [List.mem_singleton.mp hy]; exact hlt x hx⟩
  have hchain : List.Chain (· < ·) a (t ++ [slots]) :=
    List.chain_iff_pairwise.mpr (by rw [← List.cons_append]; exact hpw)
  have hfull : (a :: t) ++ [slots] = a :: (t ++ [slots]) := rfl
  have hhead : ((a :: t) ++ [slots]).headD 0 = a := rfl
  have hlast : (t ++ [slots]).getLastD a = slots := by
    rw [List.getLastD_concat]
  have hale : a ≤ slots := le_of_lt (hlt a (by simp))
  have hsum : (pairGaps ((a :: t) ++ [slots])).sum = slots - a := by
    rw [hfull, pairGaps_sum a _ hchain, hlast]
  have hgapspos : ∀ g ∈ pairGaps ((a :: t) ++ [slots]), 0 < g := by
    rw [hfull]
    exact pairGaps_pos a _ hchain
  have hgapslen : (pairGaps ((a :: t) ++ [slots])).length = t.length + 1 := by
    rw [hfull, pairGaps_length, List.length_append, List.length_singleton]
  have hleadCount : noteCount (if (((( (a :: t) ++ [slots]).headD 0 : ℕ)) : ℚ) * gs ≠ 0 then
      [Event.rest (((((a :: t) ++ [slots]).headD 0 : ℕ) : ℚ) * gs)]
    else ([] : List (Event P))) = 0 := by
    by_cases h0 : ((((a :: t) ++ [slots]).headD 0 : ℕ) : ℚ) * gs ≠ 0
    · rw [if_pos h0, noteCount_cons_rest]
      rfl
    · rw [if_neg h0]
      rfl
  have hleadTotal : totalDuration (if ((((a :: t) ++ [slots]).headD 0 : ℕ) : ℚ) * gs ≠ 0 then
      [Event.rest (((((a :: t) ++ [slots]).headD 0 : ℕ) : ℚ) * gs)]
    else ([] : List (Event P))) = (a : ℚ) * gs := by
    rw [hhead]
    by_cases h0 : ((a : ℕ) : ℚ) * gs ≠ 0
    · rw [if_pos h0, totalDuration_cons, duration_rest, totalDuration_nil, add_zero]
    · rw [if_neg h0, totalDuration_nil]
      exact (not_ne_iff.mp h0).symm
  have hleadMult : ∀ e ∈ (if ((((a :: t) ++ [slots]).headD 0 : ℕ) : ℚ) * gs ≠ 0 then
      [Event.rest (((((a :: t) ++ [slots]).headD 0 : ℕ) : ℚ) * gs)]
    else ([] : List (Event P))), ∃ n : ℕ, e.duration = (n : ℚ) * gs := by
    rw [hhead]
    by_cases h0 : ((a : ℕ) : ℚ) * gs ≠ 0
    · rw [if_pos h0]
      intro e he
      simp only [List.mem_singleton] at he
      exact ⟨a, by rw [he, duration_rest]⟩
    · rw [if_neg h0]
      intro e he
      simp at he
  subst hmel
  refine ⟨?_, ?_, ?_⟩
  · rw [noteCount_append, hleadCount, buildSegments_noteCount, hgapslen,
      List.length_cons, Nat.zero_add]
  · rw [totalDuration_append, hleadTotal,
      buildSegments_total gs isR ch dflt 0 _ hgapspos hch, hsum,
      Nat.cast_sub hale]
    ring
  · intro e he
    rcases List.mem_append.mp he with he | he
    · exact hleadMult e he
    · exact buildSegments_mult gs isR ch dflt 0 _ e he

/-- What the Minimum/Fixed rhythm branch produces after shuffle and
normalize. -/
theorem minfixed_branch_spec (gs nd : ℚ) (dflt : P) (lenN nRests : ℕ) (k : ℤ)
    (shuffled : List (Event P))
    (hk0 : 0 ≤ k) (hknd : (k : ℚ) * gs = nd)
    (hperm : List.Perm shuffled
      (List.replicate lenN (Event.note dflt nd) ++
        List.replicate nRests (Event.rest gs))) :
    noteCount (normalize shuffled) = lenN ∧
    totalDuration (normalize shuffled) =
      (lenN : ℚ) * nd + (nRests : ℚ) * gs ∧
    ∀ e ∈ normalize shuffled, ∃ n : ℕ, e.duration = (n : ℚ) * gs := by
  have hmult : ∀ e ∈ shuffled, ∃ n : ℕ, e.duration = (n : ℚ) * gs := by
    intro e he
    have hm2 := hperm.mem_iff.mp he
    rcases List.mem_append.mp hm2 with hm2 | hm2
    · have hen := List.eq_of_mem_replicate hm2
      refine ⟨k.toNat, ?_⟩
      have hcast : ((k.toNat : ℕ) : ℚ) = (k : ℚ) := by
        exact_mod_cast Int.toNat_of_nonneg hk0
      rw [hen, duration_note, ← hknd, hcast]
    · have := List.eq_of_mem_replicate hm2
      exact ⟨1, by rw [this, duration_rest]; push_cast; ring⟩
  refine ⟨?_, ?_, normalize_mult gs _ hmult⟩
  · rw [noteCount_normalize, noteCount_perm hperm, noteCount_append,
      noteCount_replicate_note, noteCount_replicate_rest, Nat.add_zero]
  · rw [totalDuration_normalize, totalDuration_perm hperm, totalDuration_append,
      totalDuration_replicate, totalDuration_replicate, duration_note,
      duration_rest]

theorem generate_ok_spec [DecidableEq P] (dflt : P) (pitches0 : List P) (len : ℤ)
    (duration gs : ℚ) (mode : DurationMode) (noteDur : Option ℚ)
    (alternate useAll : Bool) (r : Rand P) (m : List (Event P))
    (hgs : 0 ≤ gs) (hlen : 0 < len)
    (hr : RandOK r (pyInt (duration / gs)).toNat len.toNat)
    (hok : GenerateMelody dflt pitches0 len duration gs mode noteDur alternate useAll r
      = Except.ok m) :
    ∃ mel : List (Event P), m = assignPitches mel r.chosenPitches ∧
      noteCount mel = len.toNat ∧ totalDuration mel = duration ∧
      ∀ e ∈ mel, ∃ n : ℕ, e.duration = (n : ℚ) * gs := by
  simp only [GenerateMelody] at hok
  rw [if_neg (by omega : ¬ len ≤ 0)] at hok
  by_cases h2 : duration < gs
  · rw [if_pos h2] at hok; simp at hok
  rw [if_neg h2] at hok
  by_cases h3 : (pyInt (duration / gs) : ℚ) ≠ duration / gs
  · rw [if_pos h3] at hok; simp at hok
  rw [if_neg h3] at hok
  by_cases h4 : pyInt (duration / gs) < len
  · rw [if_pos h4] at hok; simp at hok
  rw [if_neg h4] at hok
  by_cases h5 : mode = DurationMode.Fixed ∧ noteDur.getD 0 = 0
  · rw [if_pos h5] at hok; simp at hok
  rw [if_neg h5] at hok
  by_cases h6 : mode = DurationMode.Fixed ∧ duration < noteDur.getD 0 * (len : ℚ)
  · rw [if_pos h6] at hok; simp at hok
  rw [if_neg h6] at hok
  by_cases h7 : mode = DurationMode.Fixed ∧ noteDur.getD 0 < gs
  · rw [if_pos h7] at hok; simp at hok
  rw [if_neg h7] at hok
  by_cases h8 : mode = DurationMode.Fixed ∧
      (pyInt (noteDur.getD 0 / gs) : ℚ) ≠ noteDur.getD 0 / gs
  · rw [if_pos h8] at hok; simp at hok
  rw [if_neg h8] at hok
  by_cases h9 : alternate = true ∧ pitches0.dedup.length < 2
  · rw [if_pos h9] at hok; simp at hok
  rw [if_neg h9] at hok
  by_cases h10 : useAll = true ∧ (len : ℤ) < (pitches0.dedup.length : ℤ)
  · rw [if_pos h10] at hok; simp at hok
  rw [if_neg h10] at hok
  rw [Except.ok.injEq] at hok
  have hDiv : (pyInt (duration / gs) : ℚ) = duration / gs := not_ne_iff.mp h3
  have hge : len ≤ pyInt (duration / gs) := not_lt.mp h4
  have hpy0 : pyInt (0 : ℚ) = 0 := by
    have := pyInt_intCast 0
    simpa using this
  have hgs0 : gs ≠ 0 := by
    intro h0
    rw [h0, div_zero, hpy0] at hge
    omega
  have hgsp : 0 < gs := lt_of_le_of_ne hgs (Ne.symm hgs0)
  have hslotsQ : (((pyInt (duration / gs)).toNat : ℕ) : ℚ) =
      (pyInt (duration / gs) : ℚ) := by
    have h0 : 0 ≤ pyInt (duration / gs) := le_trans (le_of_lt hlen) hge
    exact_mod_cast Int.toNat_of_nonneg h0
  have hdur : (((pyInt (duration / gs)).toNat : ℕ) : ℚ) * gs = duration := by
    rw [hslotsQ, hDiv, div_mul_cancel₀ _ hgs0]
  by_cases hm : mode = DurationMode.Random ∨ mode = DurationMode.Maximum
  · rw [if_pos hm] at hok
    have hnonempty : r.noteIndices ≠ [] :=
      List.ne_nil_of_length_pos (by rw [hr.idx_len]; omega)
    obtain ⟨hc, ht, hmu⟩ := randmax_branch_spec gs
      (decide (mode = DurationMode.Random)) r.chooseGrid dflt r.noteIndices
      ((pyInt (duration / gs)).toNat) _ rfl hr.idx_sorted hr.idx_lt hnonempty
      (fun k g hg => ⟨hr.choose_pos k g hg, hr.choose_le k g hg⟩)
    exact ⟨_, hok.symm, by rw [hc, hr.idx_len], by rw [ht, hdur], hmu⟩
  · rw [if_neg hm] at hok
    have hmf : mode = DurationMode.Minimum ∨ mode = DurationMode.Fixed := by
      cases mode <;> simp_all
    set nd := (if mode = DurationMode.Minimum then gs else noteDur.getD 0) with hnd
    obtain ⟨k, hk0, hknd, hpyk, hkle⟩ :
        ∃ k : ℤ, 0 ≤ k ∧ (k : ℚ) * gs = nd ∧
          pyInt ((len : ℚ) * nd / gs) = len * k ∧
          len * k ≤ pyInt (duration / gs) := by
      rcases hmf with hmin | hfix
      · refine ⟨1, by omega, ?_, ?_, ?_⟩
        · rw [hnd, if_pos hmin, Int.cast_one, one_mul]
        · rw [hnd, if_pos hmin, mul_div_assoc, div_self hgs0, mul_one,
            pyInt_intCast, mul_one]
        · rw [mul_one]; exact hge
      · have hnd0 : noteDur.getD 0 ≠ 0 := fun h0 => h5 ⟨hfix, h0⟩
        have hndge : gs ≤ noteDur.getD 0 := not_lt.mp (fun hlt => h7 ⟨hfix, hlt⟩)
        have hdivnd : (pyInt (noteDur.getD 0 / gs) : ℚ) = noteDur.getD 0 / gs :=
          not_ne_iff.mp (fun hne => h8 ⟨hfix, hne⟩)
        have hmul : noteDur.getD 0 * (len : ℚ) ≤ duration :=
          not_lt.mp (fun hlt => h6 ⟨hfix, hlt⟩)
        have hndMin : ¬ mode = DurationMode.Minimum := by rw [hfix]; simp
        refine ⟨pyInt (noteDur.getD 0 / gs), ?_, ?_, ?_, ?_⟩
        · have hq : (0 : ℚ) ≤ (pyInt (noteDur.getD 0 / gs) : ℚ) := by
            rw [hdivnd]
            exact div_nonneg (le_trans hgs hndge) hgs
          exact_mod_cast hq
        · rw [hnd, if_neg hndMin, hdivnd, div_mul_cancel₀ _ hgs0]
        · rw [hnd, if_neg hndMin]
          have heq : (len : ℚ) * noteDur.getD 0 / gs =
              ((len * pyInt (noteDur.getD 0 / gs) : ℤ) : ℚ) := by
            push_cast
            rw [hdivnd, mul_div_assoc]
          rw [heq, pyInt_intCast]
        · have hq : ((len * pyInt (noteDur.getD 0 / gs) : ℤ) : ℚ) ≤
              ((pyInt (duration / gs)) : ℚ) := by
            push_cast
            rw [hdivnd, hDiv, ← mul_div_assoc]
            exact (div_le_div_right hgsp).mpr (by linarith [hmul])
          exact_mod_cast hq
    have hNR : (((pyInt (duration / gs) - pyInt ((len : ℚ) * nd / gs)).toNat : ℕ) : ℚ) =
        (pyInt (duration / gs) : ℚ) - (len : ℚ) * (k : ℚ) := by
      rw [hpyk]
      have h0 : 0 ≤ pyInt (duration / gs) - len * k := by omega
      have hzc := Int.toNat_of_nonneg h0
      have h2c := congrArg (fun z : ℤ => (z : ℚ)) hzc
      push_cast at h2c
      exact h2c
    obtain ⟨hc, ht, hmu⟩ := minfixed_branch_spec gs nd dflt len.toNat
      ((pyInt (duration / gs) - pyInt ((len : ℚ) * nd / gs)).toNat) k
      (r.shuffleObjs (List.replicate len.toNat (Event.note dflt nd) ++
        List.replicate ((pyInt (duration / gs) - pyInt ((len : ℚ) * nd / gs)).toNat)
          (Event.rest gs)))
      hk0 hknd (hr.shuffle_perm _)
    refine ⟨_, hok.symm, hc, ?_, hmu⟩
    rw [ht, hNR]
    have hlenQ : ((len.toNat : ℕ) : ℚ) = (len : ℚ) := by
      exact_mod_cast Int.toNat_of_nonneg (le_of_lt hlen)
    have hsl : (pyInt (duration / gs) : ℚ) * gs = duration := by
      rw [hDiv, div_mul_cancel₀ _ hgs0]
    rw [hlenQ, ← hknd]
    linear_combination hsl

/-- C1: for every input accepted by `GenerateMelody`'s validation
(`length > 0`, duration at least and exactly divisible by `grid_size`,
enough grid slots, the Fixed/alternate/use_all preconditions — all
enforced by `hok`; `grid_size` nonnegative per the Duration data model)
and every oracle satisfying the random primitives' contracts, the returned
melody has exactly `length` Notes and its total duration equals `duration`
exactly, in both rhythm branches. -/
theorem claim_C1_generate_count_duration [DecidableEq P] (dflt : P)
    (pitches0 : List P) (len : ℤ) (duration gs : ℚ) (mode : DurationMode)
    (noteDur : Option ℚ) (alternate useAll : Bool) (r : Rand P)
    (m : List (Event P)) (hgs : 0 ≤ gs) (hlen : 0 < len)
    (hr : RandOK r (pyInt (duration / gs)).toNat len.toNat)
    (hok : GenerateMelody dflt pitches0 len duration gs mode noteDur
      alternate useAll r = Except.ok m) :
    noteCount m = len.toNat ∧ totalDuration m = duration := by
  obtain ⟨mel, hmel, hc, ht, _⟩ := generate_ok_spec dflt pitches0 len duration gs
    mode noteDur alternate useAll r m hgs hlen hr hok
  rw [hmel]
  exact ⟨by rw [assign_noteCount, hc], by rw [assign_totalDuration, ht]⟩

/-- C5: every Event duration of a generated melody is an exact natural
multiple of the `grid_size` parameter, and the total duration is an exact
integer multiple of the melody's own grid size (the exact-rational GCD of
its event durations), in both rhythm branches. -/
theorem claim_C5_grid_multiples [DecidableEq P] (dflt : P)
    (pitches0 : List P) (len : ℤ) (duration gs : ℚ) (mode : DurationMode)
    (noteDur : Option ℚ) (alternate useAll : Bool) (r : Rand P)
    (m : List (Event P)) (hgs : 0 ≤ gs) (hlen : 0 < len)
    (hr : RandOK r (pyInt (duration / gs)).toNat len.toNat)
    (hok : GenerateMelody dflt pitches0 len duration gs mode noteDur
      alternate useAll r = Except.ok m) :
    (∀ e ∈ m, ∃ n : ℕ, e.duration = (n : ℚ) * gs) ∧
    (∃ z : ℤ, totalDuration m = (z : ℚ) * gridSize m) := by
  obtain ⟨mel, hmel, _, _, hmu⟩ := generate_ok_spec dflt pitches0 len duration gs
    mode noteDur alternate useAll r m hgs hlen hr hok
  refine ⟨?_, total_qdvd_gridSize m⟩
  intro e he
  rw [hmel] at he
  have hd : e.duration ∈ mel.map Event.duration := by
    rw [← assign_map_duration mel r.chosenPitches]
    exact List.mem_map_of_mem _ he
  obtain ⟨e2, he2, hde⟩ := List.mem_map.mp hd
  obtain ⟨n, hn⟩ := hmu e2 he2
  exact ⟨n, by rw [← hde]; exact hn⟩

/-!  The alternate-mode insertion loop never creates adjacent equal
pitches. -/

theorem canInsert_tail (a : P) (tl : List P) (j : ℕ) (p : P)
    (hc : CanInsert (a :: tl) (j + 1) p) : CanInsert tl j p := by
  obtain ⟨h1, h2⟩ := hc
  constructor
  · cases j with
    | zero => exact Or.inl rfl
    | succ j2 =>
        rcases h1 with h1 | h1
        · exact absurd h1 (by omega)
        · right
          simpa using h1
  · simpa using h2

theorem chain_ne_insertAt (l : List P) (i : ℕ) (p : P) (hi : i ≤ l.length)
    (hc : CanInsert l i p) (hl : l.Chain' (· ≠ ·)) :
    (insertAt l i p).Chain' (· ≠ ·) := by
  induction l generalizing i with
  | nil =>
      cases i with
      | zero => simp [insertAt]
      | succ j => simp [insertAt]
  | cons a tl ih =>
      cases i with
      | zero =>
          rw [show insertAt (a :: tl) 0 p = p :: a :: tl from rfl]
          refine List.chain'_cons.mpr ⟨?_, hl⟩
          have h2 := hc.2
          rw [List.get?_cons_zero] at h2
          intro hpa
          exact h2 (by rw [hpa])
      | succ j =>
          rw [show insertAt (a :: tl) (j + 1) p = a :: insertAt tl j p from rfl]
          have htl : tl.Chain' (· ≠ ·) := (List.chain'_cons'.mp hl).2
          have hij : j ≤ tl.length := by simpa using hi
          refine List.chain'_cons'.mpr
            ⟨?_, ih j hij (canInsert_tail a tl j p hc) htl⟩
          intro b hb
          cases j with
          | zero =>
              rw [show insertAt tl 0 p = p :: tl by cases tl <;> rfl] at hb
              simp only [List.head?_cons, Option.mem_def, Option.some.injEq] at hb
              rcases hc.1 with h1 | h1
              · exact absurd h1 (by omega)
              · rw [List.get?_cons_zero] at h1
                rw [← hb]
                intro hap
                exact h1 (by rw [hap])
          | succ j2 =>
              cases tl with
              | nil => simp at hij
              | cons c tl2 =>
                  rw [show insertAt (c :: tl2) (j2 + 1) p = c :: insertAt tl2 j2 p
                    from rfl] at hb
                  simp only [List.head?_cons, Option.mem_def,
                    Option.some.injEq] at hb
                  rw [← hb]
                  exact (List.chain'_cons.mp hl).1

theorem altStep_chain {pitches : List P} {l l2 : List P}
    (h : AltStep pitches l l2) (hl : l.Chain' (· ≠ ·)) :
    l2.Chain' (· ≠ ·) := by
  cases h with
  | insert p i hp hi hc => exact chain_ne_insertAt l i p hi hc hl

theorem altReach_chain {pitches : List P} {seed ch : List P}
    (h : AltReach pitches seed ch) (hs : seed.Chain' (· ≠ ·)) :
    ch.Chain' (· ≠ ·) := by
  induction h with
  | refl => exact hs
  | tail h1 hstep ih => exact altStep_chain hstep ih

/-- C2: with `alternate = true` (and at least 2 distinct pitches, enforced
by validation), for every random stream on which the insertion loop
terminates — in either `use_all` mode — the generated melody has no two
adjacent Notes with equal pitch. -/
theorem claim_C2_alternate_no_adjacent [DecidableEq P] (dflt : P)
    (pitches0 : List P) (len : ℤ) (duration gs : ℚ) (mode : DurationMode)
    (noteDur : Option ℚ) (useAll : Bool) (r : Rand P) (m : List (Event P))
    (hgs : 0 ≤ gs) (hlen : 0 < len)
    (hr : RandOK r (pyInt (duration / gs)).toNat len.toNat)
    (hpo : PitchOutcome pitches0.dedup len.toNat true useAll r.chosenPitches)
    (hok : GenerateMelody dflt pitches0 len duration gs mode noteDur
      true useAll r = Except.ok m) :
    (notePitches m).Chain' (· ≠ ·) := by
  obtain ⟨mel, hmel, hc, _, _⟩ := generate_ok_spec dflt pitches0 len duration gs
    mode noteDur true useAll r m hgs hlen hr hok
  rw [PitchOutcome, if_pos rfl] at hpo
  obtain ⟨seed, hseed, hreach, hclen⟩ := hpo
  have hch : r.chosenPitches.Chain' (· ≠ ·) := by
    apply altReach_chain hreach
    cases useAll with
    | true =>
        rw [if_pos rfl] at hseed
        exact List.Pairwise.chain' (hseed.symm.nodup (List.nodup_dedup pitches0))
    | false =>
        rw [if_neg (by simp)] at hseed
        rw [hseed]
        exact List.chain'_nil
  have hlen2 : r.chosenPitches.length = noteCount mel := by rw [hclen, hc]
  have e1 : (notePitches mel).drop r.chosenPitches.length = [] := by
    rw [hlen2, ← notePitches_length mel, List.drop_length]
  have e2 : r.chosenPitches.take (noteCount mel) = r.chosenPitches := by
    rw [← hlen2, List.take_length]
  rw [hmel, assign_notePitches, e1, e2, List.append_nil]
  exact hch

theorem claim_C1_generate_count_duration_witness :
    ((0 : ℚ) ≤ 1 ∧ (0 : ℤ) < 2 ∧
      RandOK exRand (pyInt ((2 : ℚ) / 1)).toNat (2 : ℤ).toNat ∧
      GenerateMelody 0 [0, 1] 2 2 1 DurationMode.Maximum none false false exRand =
        Except.ok [Event.note 0 1, Event.note 1 1]) ∧
    (noteCount [Event.note (0 : ℕ) (1 : ℚ), Event.note 1 1] = (2 : ℤ).toNat ∧
      totalDuration [Event.note (0 : ℕ) (1 : ℚ), Event.note 1 1] = 2) := by
  have hrok : RandOK exRand (pyInt ((2 : ℚ) / 1)).toNat (2 : ℤ).toNat := by
    rw [div_one]
    exact ⟨by decide, by decide, rfl, fun _ _ hg => hg, fun _ _ hg => le_refl _,
      fun l => List.Perm.refl l⟩
  have hok : GenerateMelody 0 [0, 1] 2 2 1 DurationMode.Maximum none false false
      exRand = Except.ok [Event.note 0 1, Event.note 1 1] := by
    with_unfolding_all rfl
  exact ⟨⟨by norm_num, by decide, hrok, hok⟩,
    claim_C1_generate_count_duration 0 [0, 1] 2 2 1 DurationMode.Maximum none
      false false exRand _ (by norm_num) (by decide) hrok hok⟩

theorem claim_C5_grid_multiples_witness :
    ((0 : ℚ) ≤ 1 ∧ (0 : ℤ) < 2 ∧
      RandOK exRand (pyInt ((2 : ℚ) / 1)).toNat (2 : ℤ).toNat ∧
      GenerateMelody 0 [0, 1] 2 2 1 DurationMode.Random none false false exRand =
        Except.ok [Event.note 0 1, Event.note 1 1]) ∧
    ((∀ e ∈ [Event.note (0 : ℕ) (1 : ℚ), Event.note 1 1],
        ∃ n : ℕ, e.duration = (n : ℚ) * 1) ∧
      (∃ z : ℤ, totalDuration [Event.note (0 : ℕ) (1 : ℚ), Event.note 1 1] =
        (z : ℚ) * gridSize [Event.note (0 : ℕ) (1 : ℚ), Event.note 1 1])) := by
  have hrok : RandOK exRand (pyInt ((2 : ℚ) / 1)).toNat (2 : ℤ).toNat := by
    rw [div_one]
    exact ⟨by decide, by decide, rfl, fun _ _ hg => hg, fun _ _ hg => le_refl _,
      fun l => List.Perm.refl l⟩
  have hok : GenerateMelody 0 [0, 1] 2 2 1 DurationMode.Random none false false
      exRand = Except.ok [Event.note 0 1, Event.note 1 1] := by
    with_unfolding_all rfl
  exact ⟨⟨by norm_num, by decide, hrok, hok⟩,
    claim_C5_grid_multiples 0 [0, 1] 2 2 1 DurationMode.Random none
      false false exRand _ (by norm_num) (by decide) hrok hok⟩

theorem claim_C2_alternate_no_adjacent_witness :
    ((0 : ℚ) ≤ 1 ∧ (0 : ℤ) < 2 ∧
      RandOK exRand (pyInt ((2 : ℚ) / 1)).toNat (2 : ℤ).toNat ∧
      PitchOutcome ([0, 1] : List ℕ).dedup (2 : ℤ).toNat true false
        exRand.chosenPitches ∧
      GenerateMelody 0 [0, 1] 2 2 1 DurationMode.Maximum none true false exRand =
        Except.ok [Event.note 0 1, Event.note 1 1]) ∧
    (notePitches [Event.note (0 : ℕ) (1 : ℚ), Event.note 1 1]).Chain' (· ≠ ·) := by
  have hrok : RandOK exRand (pyInt ((2 : ℚ) / 1)).toNat (2 : ℤ).toNat := by
    rw [div_one]
    exact ⟨by decide, by decide, rfl, fun _ _ hg => hg, fun _ _ hg => le_refl _,
      fun l => List.Perm.refl l⟩
  have hok : GenerateMelody 0 [0, 1] 2 2 1 DurationMode.Maximum none true false
      exRand = Except.ok [Event.note 0 1, Event.note 1 1] := by
    with_unfolding_all rfl
  have hpo : PitchOutcome ([0, 1] : List ℕ).dedup (2 : ℤ).toNat true false
      exRand.chosenPitches := by
    rw [PitchOutcome, if_pos rfl]
    refine ⟨[], by simp, ?_, rfl⟩
    exact Relation.ReflTransGen.head
      (AltStep.insert [] 0 0 (by decide) (by decide) ⟨Or.inl rfl, by simp⟩)
      (Relation.ReflTransGen.head
        (AltStep.insert [0] 1 1 (by decide) (by decide)
          ⟨Or.inr (by simp), by simp⟩)
        Relation.ReflTransGen.refl)
  exact ⟨⟨by norm_num, by decide, hrok, hpo, hok⟩,
    claim_C2_alternate_no_adjacent 0 [0, 1] 2 2 1 DurationMode.Maximum none
      false exRand _ (by norm_num) (by decide) hrok hpo hok⟩

/-!  The heap frame lemmas: every pitch write of the operations targets a
freshly copied (or freshly generated) cell, so all addresses below the
original heap length read unchanged. -/

theorem setPitchH_get?_ne (h : Heap P) (a b : ℕ) (p : P) (hne : a ≠ b) :
    (setPitchH h a p).get? b = h.get? b := by
  unfold setPitchH
  cases hg : h.get? a with
  | none => rfl
  | some e =>
      cases e with
      | note q d => exact List.get?_set_ne _ _ hne
      | rest d => rfl

theorem setPitchO_get?_ne (h : Heap P) (a b : ℕ) (p? : Option P) (hne : a ≠ b) :
    (setPitchO h a p?).get? b = h.get? b := by
  cases p? with
  | none => rfl
  | some p => exact setPitchH_get?_ne h a b p hne

theorem setPitchesH_get?_lt (ws : List (ℕ × P)) (h : Heap P) (n b : ℕ)
    (hb : b < n) (hws : ∀ w ∈ ws, n ≤ w.1) :
    (setPitchesH h ws).get? b = h.get? b := by
  induction ws generalizing h with
  | nil => rfl
  | cons w tl ih =>
      rw [setPitchesH, List.foldl_cons]
      rw [show (List.foldl (fun hh w => setPitchH hh w.1 w.2)
        (setPitchH h w.1 w.2) tl) = setPitchesH (setPitchH h w.1 w.2) tl from rfl]
      rw [ih _ (fun x hx => hws x (by simp [hx]))]
      exact setPitchH_get?_ne h w.1 b w.2 (by have := hws w (by simp); omega)

theorem setPitchesO_get?_lt (ws : List (ℕ × Option P)) (h : Heap P) (n b : ℕ)
    (hb : b < n) (hws : ∀ w ∈ ws, n ≤ w.1) :
    (setPitchesO h ws).get? b = h.get? b := by
  induction ws generalizing h with
  | nil => rfl
  | cons w tl ih =>
      rw [setPitchesO, List.foldl_cons]
      rw [show (List.foldl (fun hh w => setPitchO hh w.1 w.2)
        (setPitchO h w.1 w.2) tl) = setPitchesO (setPitchO h w.1 w.2) tl from rfl]
      rw [ih _ (fun x hx => hws x (by simp [hx]))]
      exact setPitchO_get?_ne h w.1 b w.2 (by have := hws w (by simp); omega)

theorem swapPairsH_get?_lt (addrs : List ℕ) (h : Heap P) (n b : ℕ)
    (hb : b < n) (haddrs : ∀ x ∈ addrs, n ≤ x) :
    (swapPairsH h addrs).get? b = h.get? b := by
  revert haddrs
  induction h, addrs using swapPairsH.induct (P := P) with
  | case1 h a c tl ih =>
      intro haddrs
      rw [show swapPairsH h (a :: c :: tl) =
        swapPairsH (setPitchO (setPitchO h a (getPitchH h c)) c (getPitchH h a)) tl
        from rfl]
      rw [ih (fun x hx => haddrs x (by simp [hx]))]
      rw [setPitchO_get?_ne _ _ _ _ (by have := haddrs c (by simp); omega)]
      rw [setPitchO_get?_ne _ _ _ _ (by have := haddrs a (by simp); omega)]
  | case2 l h hl =>
      intro haddrs
      rw [show swapPairsH h l = h from by
        cases l with
        | nil => rfl
        | cons x tl =>
            cases tl with
            | nil => rfl
            | cons y tl2 => exact absurd rfl (hl x y tl2)]

theorem deepcopy_get?_lt (h : Heap P) (m : MRef) (b : ℕ) (hb : b < h.length) :
    ((deepcopyM h m).1).get? b = h.get? b := by
  rw [deepcopyM]
  exact List.get?_append hb

theorem deepcopy_len (h : Heap P) (m : MRef) :
    (deepcopyM h m).1.length = h.length + m.length := by
  simp [deepcopyM]

theorem deepcopy_ref_ge (h : Heap P) (m : MRef) :
    ∀ b ∈ (deepcopyM h m).2, h.length ≤ b := by
  intro b hb
  rw [deepcopyM] at hb
  exact (List.mem_range'_1.mp hb).1

theorem noteRefs_subset (h : Heap P) (m : MRef) : ∀ a ∈ noteRefs h m, a ∈ m :=
  fun _ ha => List.mem_of_mem_filter ha

theorem readMel_congr (h1 h2 : Heap P) (m : MRef)
    (hg : ∀ a ∈ m, h2.get? a = h1.get? a) : readMel h2 m = readMel h1 m := by
  unfold readMel
  exact List.map_congr_left hg

theorem nrefs_ge (h : Heap P) (m : MRef) :
    ∀ x ∈ noteRefs (deepcopyM h m).1 (deepcopyM h m).2, h.length ≤ x :=
  fun x hx => deepcopy_ref_ge h m x (noteRefs_subset _ _ x hx)

theorem filterMap_get?_ge (h : Heap P) (m : MRef) (s : List ℕ) :
    ∀ x ∈ s.filterMap (noteRefs (deepcopyM h m).1 (deepcopyM h m).2).get?,
      h.length ≤ x := by
  intro x hx
  obtain ⟨i, _, hi⟩ := List.mem_filterMap.mp hx
  exact nrefs_ge h m x (List.get?_mem hi)

theorem zip_fst_ge {α : Type} (l : List ℕ) (vals : List α) (n : ℕ)
    (hl : ∀ x ∈ l, n ≤ x) : ∀ w ∈ l.zip vals, n ≤ w.1 :=
  fun w hw => hl w.1 (List.of_mem_zip hw).1

theorem ChangePitchH_frame (h : Heap P) (m : MRef) (mode : AmountMode)
    (amount : Option ℤ) (rA : ℤ) (sel : List ℕ) (pickP : ℕ → P)
    (h2 : Heap P) (c : MRef) (b : ℕ) (hb : b < h.length)
    (hok : ChangePitchH h m mode amount rA sel pickP = Except.ok (h2, c)) :
    h2.get? b = h.get? b := by
  simp only [ChangePitchH, pyRandint] at hok
  repeat' split at hok
  all_goals
    first
    | exact Except.noConfusion hok
    | (simp only [Except.ok.injEq, Prod.mk.injEq] at hok
       rw [← hok.1,
         setPitchesH_get?_lt _ _ h.length b hb
           (zip_fst_ge _ _ _ (filterMap_get?_ge h m _))]
       exact deepcopy_get?_lt h m b hb)

theorem SwapPitchH_frame (h : Heap P) (m : MRef) (mode : AmountMode)
    (amount : Option ℤ) (rA : ℤ) (sel : List ℕ)
    (h2 : Heap P) (c : MRef) (b : ℕ) (hb : b < h.length)
    (hok : SwapPitchH h m mode amount rA sel = Except.ok (h2, c)) :
    h2.get? b = h.get? b := by
  simp only [SwapPitchH, pyRandint] at hok
  repeat' split at hok
  all_goals
    first
    | exact Except.noConfusion hok
    | (simp only [Except.ok.injEq, Prod.mk.injEq] at hok
       rw [← hok.1,
         swapPairsH_get?_lt _ _ h.length b hb (filterMap_get?_ge h m _)]
       exact deepcopy_get?_lt h m b hb)

theorem ShiftPitchH_frame (h : Heap P) (m : MRef) (mode : AmountMode)
    (amount : Option ℤ) (rA : ℤ)
    (h2 : Heap P) (c : MRef) (b : ℕ) (hb : b < h.length)
    (hok : ShiftPitchH h m mode amount rA = Except.ok (h2, c)) :
    h2.get? b = h.get? b := by
  simp only [ShiftPitchH, pyRandint] at hok
  repeat' split at hok
  all_goals
    first
    | exact Except.noConfusion hok
    | (simp only [Except.ok.injEq, Prod.mk.injEq] at hok
       rw [← hok.1]
       exact deepcopy_get?_lt h m b hb)
    | (simp only [Except.ok.injEq, Prod.mk.injEq] at hok
       rw [← hok.1,
         setPitchesO_get?_lt _ _ h.length b hb
           (zip_fst_ge _ _ _ (nrefs_ge h m))]
       exact deepcopy_get?_lt h m b hb)

theorem shuffle_ws_ge (h : Heap P) (m : MRef) {α : Type} (l : List (ℕ × α)) :
    ∀ w ∈ l.filterMap (fun w =>
      ((noteRefs (deepcopyM h m).1 (deepcopyM h m).2).get? w.1).map
        (fun a => (a, w.2))),
      h.length ≤ w.1 := by
  intro w hw
  obtain ⟨x, _, hx⟩ := List.mem_filterMap.mp hw
  obtain ⟨a, ha, hax⟩ := Option.map_eq_some'.mp hx
  rw [← hax]
  exact nrefs_ge h m a (List.get?_mem ha)

theorem map_pair_fst_ge {α : Type} (l : List ℕ) (f : ℕ → α) (n : ℕ)
    (hl : ∀ x ∈ l, n ≤ x) :
    ∀ w ∈ l.map (fun a => (a, f a)), n ≤ w.1 := by
  intro w hw
  obtain ⟨a, ha, hx⟩ := List.mem_map.mp hw
  rw [← hx]
  exact hl a ha

theorem ShufflePitchH_frame (h : Heap P) (m : MRef) (mode : AmountMode)
    (amount : Option ℤ) (rA : ℤ) (sel sel2 : List ℕ)
    (h2 : Heap P) (c : MRef) (b : ℕ) (hb : b < h.length)
    (hok : ShufflePitchH h m mode amount rA sel sel2 = Except.ok (h2, c)) :
    h2.get? b = h.get? b := by
  simp only [ShufflePitchH, pyRandint] at hok
  repeat' split at hok
  all_goals
    first
    | exact Except.noConfusion hok
    | (simp only [Except.ok.injEq, Prod.mk.injEq] at hok
       rw [← hok.1]
       exact deepcopy_get?_lt h m b hb)
    | (simp only [Except.ok.injEq, Prod.mk.injEq] at hok
       rw [← hok.1,
         setPitchesO_get?_lt _ _ h.length b hb (shuffle_ws_ge h m _)]
       exact deepcopy_get?_lt h m b hb)

theorem RemapPitchH_frame [DecidableEq P] (h : Heap P) (m : MRef)
    (mode : AmountMode) (amount : Option ℤ) (rA : ℤ) (sel : List ℕ)
    (permP : List P → List P)
    (h2 : Heap P) (c : MRef) (b : ℕ) (hb : b < h.length)
    (hok : RemapPitchH h m mode amount rA sel permP = Except.ok (h2, c)) :
    h2.get? b = h.get? b := by
  simp only [RemapPitchH, pyRandint] at hok
  repeat' split at hok
  all_goals
    first
    | exact Except.noConfusion hok
    | (simp only [Except.ok.injEq, Prod.mk.injEq] at hok
       rw [← hok.1]
       exact deepcopy_get?_lt h m b hb)
    | (simp only [Except.ok.injEq, Prod.mk.injEq] at hok
       rw [← hok.1,
         setPitchesO_get?_lt _ _ h.length b hb
           (map_pair_fst_ge _ _ _ (filterMap_get?_ge h m _))]
       exact deepcopy_get?_lt h m b hb)

theorem RevertPitchH_frame (h : Heap P) (m : MRef) (b : ℕ) (hb : b < h.length) :
    (RevertPitchH h m).1.get? b = h.get? b := by
  rw [RevertPitchH]
  split
  · exact deepcopy_get?_lt h m b hb
  · dsimp only
    rw [setPitchesO_get?_lt _ _ h.length b hb
      (zip_fst_ge _ _ _ (nrefs_ge h m))]
    exact deepcopy_get?_lt h m b hb

theorem addMelH_get?_lt (h : Heap P) (m1 m2 : MRef) (b : ℕ) (hb : b < h.length) :
    (addMelH h m1 m2).1.get? b = h.get? b := by
  rw [addMelH]
  dsimp only
  rw [deepcopy_get?_lt _ _ b (by rw [deepcopy_len]; omega)]
  exact deepcopy_get?_lt h m2 b hb

theorem addMelH_len_ge (h : Heap P) (m1 m2 : MRef) :
    h.length ≤ (addMelH h m1 m2).1.length := by
  rw [addMelH]
  dsimp only
  rw [deepcopy_len, deepcopy_len]
  omega

theorem foldl_addMelH_get?_lt (ms : List MRef) (acc : Heap P × MRef) (b : ℕ)
    (hb : b < acc.1.length) :
    ((ms.foldl (fun acc mm => addMelH acc.1 acc.2 mm) acc).1).get? b =
      acc.1.get? b := by
  induction ms generalizing acc with
  | nil => rfl
  | cons mm tl ih =>
      rw [List.foldl_cons,
        ih _ (lt_of_lt_of_le hb (addMelH_len_ge acc.1 acc.2 mm)),
        addMelH_get?_lt _ _ _ b hb]

theorem ConcatMelodiesH_frame (h : Heap P) (m1 m2 m3 m4 : Option MRef) (b : ℕ)
    (hb : b < h.length) :
    (ConcatMelodiesH h m1 m2 m3 m4).1.get? b = h.get? b := by
  rw [ConcatMelodiesH]
  split
  · rfl
  · exact foldl_addMelH_get?_lt _ _ b hb

theorem cropRefsGo_subset (hh : Heap P) (l : MRef) (lim cnt : ℕ) :
    ∀ a ∈ cropRefsGo hh l lim cnt, a ∈ l := by
  induction l generalizing cnt with
  | nil => simp [cropRefsGo]
  | cons x tl ih =>
      intro a ha
      rw [cropRefsGo] at ha
      split at ha
      · split at ha
        · simp only [List.mem_singleton] at ha
          simp [ha]
        · rcases List.mem_cons.mp ha with ha | ha
          · simp [ha]
          · exact List.mem_cons_of_mem _ (ih _ a ha)
      · rcases List.mem_cons.mp ha with ha | ha
        · simp [ha]
        · exact List.mem_cons_of_mem _ (ih _ a ha)

theorem cropRefs_subset (hh : Heap P) (l : MRef) (z : ℤ) :
    ∀ a ∈ cropRefs hh l z, a ∈ l := by
  intro a ha
  rw [cropRefs] at ha
  split at ha
  · simp at ha
  · exact cropRefsGo_subset hh l _ _ a ha

theorem ite_cropRefs_subset (hh : Heap P) (l : MRef) (z : ℤ) (c : Prop)
    [Decidable c] :
    ∀ a ∈ (if c then cropRefs hh l z else l), a ∈ l := by
  intro a ha
  split at ha
  · exact cropRefs_subset hh l z a ha
  · exact ha

theorem SubstitutePitchH_frame (h : Heap P) (mr ms : MRef) (crop : Bool) (b : ℕ)
    (hb : b < h.length) :
    (SubstitutePitchH h mr ms crop).1.get? b = h.get? b := by
  rw [SubstitutePitchH]
  dsimp only
  rw [setPitchesO_get?_lt _ _ h.length b hb ?_]
  · rw [deepcopy_get?_lt _ _ b (by rw [deepcopy_len]; omega)]
    exact deepcopy_get?_lt h mr b hb
  · intro w hw
    have h1 := (List.of_mem_zip hw).1
    have h2 := noteRefs_subset _ _ w.1 h1
    have h3 := ite_cropRefs_subset _ _ _ _ w.1 h2
    exact deepcopy_ref_ge h mr w.1 h3

theorem SubstituteRhythmH_frame (h : Heap P) (mseq mr : MRef) (b : ℕ)
    (hb : b < h.length) :
    (SubstituteRhythmH h mseq mr).1.get? b = h.get? b := by
  rw [SubstituteRhythmH]
  rw [SubstitutePitchH_frame _ _ _ _ b (by rw [deepcopy_len, deepcopy_len]; omega)]
  rw [deepcopy_get?_lt _ _ b (by rw [deepcopy_len]; omega)]
  exact deepcopy_get?_lt h mr b hb

theorem alloc_get?_lt (h : Heap P) (evs : List (Event P)) (b : ℕ)
    (hb : b < h.length) :
    (allocM h evs).1.get? b = h.get? b := by
  rw [allocM]
  exact List.get?_append hb

theorem alloc_ref_ge (h : Heap P) (evs : List (Event P)) :
    ∀ x ∈ (allocM h evs).2, h.length ≤ x := by
  intro x hx
  rw [allocM] at hx
  exact (List.mem_range'_1.mp hx).1

theorem ChangeRhythmH_frame [DecidableEq P] (h : Heap P) (m : MRef)
    (durO gsO : Option ℚ) (mode : DurationMode) (nd : Option ℚ) (r : Rand P)
    (c0 : P) (h2 : Heap P) (c : MRef) (b : ℕ) (hb : b < h.length)
    (hok : ChangeRhythmH h m durO gsO mode nd r c0 = Except.ok (h2, c)) :
    h2.get? b = h.get? b := by
  simp only [ChangeRhythmH] at hok
  repeat' split at hok
  all_goals
    first
    | exact Except.noConfusion hok
    | (simp only [Except.ok.injEq, Prod.mk.injEq] at hok
       rw [← hok.1,
         setPitchesO_get?_lt _ _ h.length b hb ?_,
         alloc_get?_lt _ _ b (by rw [deepcopy_len]; omega)]
       · exact deepcopy_get?_lt h m b hb
       · intro w hw
         have h1 := (List.of_mem_zip hw).1
         have h3 := noteRefs_subset _ _ w.1 h1
         have h4 := alloc_ref_ge (deepcopyM h m).1 _ w.1 h3
         rw [deepcopy_len] at h4
         omega)

/-- C7: every transform/combining operation of the operation library
(ChangePitch, SwapPitch, ShiftPitch, ShufflePitch, RemapPitch,
RevertPitch, ChangeRhythm, ConcatMelodies, SubstitutePitch,
SubstituteRhythm) is non-mutating: on every input on which the operation
returns, any melody object `m` whose event addresses all pre-exist in the
heap — in particular each input melody — reads the same event sequence
(pitches, durations, ordering) before and after the call, because every
write targets freshly deep-copied or freshly allocated cells. -/
theorem claim_C7_nonmutating [DecidableEq P] (h : Heap P) (m : MRef)
    (hv : ∀ a ∈ m, a < h.length) :
    (∀ mi mode amount rA sel pickP h2 c,
      ChangePitchH h mi mode amount rA sel pickP = Except.ok (h2, c) →
      readMel h2 m = readMel h m) ∧
    (∀ mi mode amount rA sel h2 c,
      SwapPitchH h mi mode amount rA sel = Except.ok (h2, c) →
      readMel h2 m = readMel h m) ∧
    (∀ mi mode amount rA h2 c,
      ShiftPitchH h mi mode amount rA = Except.ok (h2, c) →
      readMel h2 m = readMel h m) ∧
    (∀ mi mode amount rA sel sel2 h2 c,
      ShufflePitchH h mi mode amount rA sel sel2 = Except.ok (h2, c) →
      readMel h2 m = readMel h m) ∧
    (∀ mi mode amount rA sel permP h2 c,
      RemapPitchH h mi mode amount rA sel permP = Except.ok (h2, c) →
      readMel h2 m = readMel h m) ∧
    (∀ mi, readMel (RevertPitchH h mi).1 m = readMel h m) ∧
    (∀ mi durO gsO mode nd r c0 h2 c,
      ChangeRhythmH h mi durO gsO mode nd r c0 = Except.ok (h2, c) →
      readMel h2 m = readMel h m) ∧
    (∀ m1 m2 m3 m4,
      readMel (ConcatMelodiesH h m1 m2 m3 m4).1 m = readMel h m) ∧
    (∀ mr ms crop,
      readMel (SubstitutePitchH h mr ms crop).1 m = readMel h m) ∧
    (∀ mseq mr,
      readMel (SubstituteRhythmH h mseq mr).1 m = readMel h m) := by
  refine ⟨?_, ?_, ?_, ?_, ?_, ?_, ?_, ?_, ?_, ?_⟩
  · intro mi mode amount rA sel pickP h2 c hok
    exact readMel_congr h h2 m (fun a ha =>
      ChangePitchH_frame h mi mode amount rA sel pickP h2 c a (hv a ha) hok)
  · intro mi mode amount rA sel h2 c hok
    exact readMel_congr h h2 m (fun a ha =>
      SwapPitchH_frame h mi mode amount rA sel h2 c a (hv a ha) hok)
  · intro mi mode amount rA h2 c hok
    exact readMel_congr h h2 m (fun a ha =>
      ShiftPitchH_frame h mi mode amount rA h2 c a (hv a ha) hok)
  · intro mi mode amount rA sel sel2 h2 c hok
    exact readMel_congr h h2 m (fun a ha =>
      ShufflePitchH_frame h mi mode amount rA sel sel2 h2 c a (hv a ha) hok)
  · intro mi mode amount rA sel permP h2 c hok
    exact readMel_congr h h2 m (fun a ha =>
      RemapPitchH_frame h mi mode amount rA sel permP h2 c a (hv a ha) hok)
  · intro mi
    exact readMel_congr h _ m (fun a ha =>
      RevertPitchH_frame h mi a (hv a ha))
  · intro mi durO gsO mode nd r c0 h2 c hok
    exact readMel_congr h h2 m (fun a ha =>
      ChangeRhythmH_frame h mi durO gsO mode nd r c0 h2 c a (hv a ha) hok)
  · intro m1 m2 m3 m4
    exact readMel_congr h _ m (fun a ha =>
      ConcatMelodiesH_frame h m1 m2 m3 m4 a (hv a ha))
  · intro mr ms crop
    exact readMel_congr h _ m (fun a ha =>
      SubstitutePitchH_frame h mr ms crop a (hv a ha))
  · intro mseq mr
    exact readMel_congr h _ m (fun a ha =>
      SubstituteRhythmH_frame h mseq mr a (hv a ha))

theorem claim_C7_nonmutating_witness :
    (∀ a ∈ mrefW, a < heapW.length) ∧
    (ChangePitchH heapW mrefW AmountMode.Maximum none 0 [0, 1] (fun _ => 5) =
      Except.ok ([Event.note 10 1, Event.rest 1, Event.note 11 1,
        Event.note 5 1, Event.rest 1, Event.note 5 1], [3, 4, 5]) ∧
      readMel [Event.note 10 1, Event.rest 1, Event.note 11 1,
        Event.note 5 1, Event.rest 1, Event.note 5 1] mrefW =
        readMel heapW mrefW) ∧
    (SwapPitchH heapW mrefW AmountMode.Maximum none 0 [0, 1] =
      Except.ok ([Event.note 10 1, Event.rest 1, Event.note 11 1,
        Event.note 11 1, Event.rest 1, Event.note 10 1], [3, 4, 5]) ∧
      readMel [Event.note 10 1, Event.rest 1, Event.note 11 1,
        Event.note 11 1, Event.rest 1, Event.note 10 1] mrefW =
        readMel heapW mrefW) ∧
    (ShiftPitchH heapW mrefW AmountMode.Maximum none 0 =
      Except.ok ([Event.note 10 1, Event.rest 1, Event.note 11 1,
        Event.note 11 1, Event.rest 1, Event.note 10 1], [3, 4, 5])) ∧
    (ShufflePitchH heapW mrefW AmountMode.Maximum none 0 [0, 1] [1, 0] =
      Except.ok ([Event.note 10 1, Event.rest 1, Event.note 11 1,
        Event.note 11 1, Event.rest 1, Event.note 10 1], [3, 4, 5])) ∧
    (RemapPitchH heapW mrefW AmountMode.Maximum none 0 [0, 1]
        (fun l => l.reverse) =
      Except.ok ([Event.note 10 1, Event.rest 1, Event.note 11 1,
        Event.note 11 1, Event.rest 1, Event.note 10 1], [3, 4, 5])) ∧
    (readMel (RevertPitchH heapW mrefW).1 mrefW = readMel heapW mrefW) ∧
    (ChangeRhythmH heapW mrefW (some 2) (some 1) DurationMode.Maximum none
        exRand 0 =
      Except.ok ([Event.note 10 1, Event.rest 1, Event.note 11 1,
        Event.note 10 1, Event.rest 1, Event.note 11 1,
        Event.note 10 1, Event.note 11 1], [6, 7]) ∧
      readMel [Event.note 10 1, Event.rest 1, Event.note 11 1,
        Event.note 10 1, Event.rest 1, Event.note 11 1,
        Event.note 10 1, Event.note 11 1] mrefW = readMel heapW mrefW) ∧
    (readMel (ConcatMelodiesH heapW (some mrefW) (some [0]) none none).1
      mrefW = readMel heapW mrefW) ∧
    (readMel (SubstitutePitchH heapW mrefW [0] true).1 mrefW =
      readMel heapW mrefW) ∧
    (readMel (SubstituteRhythmH heapW [0] mrefW).1 mrefW =
      readMel heapW mrefW) := by
  have hv : ∀ a ∈ mrefW, a < heapW.length := by decide
  have hc := claim_C7_nonmutating heapW mrefW hv
  have e1 : ChangePitchH heapW mrefW AmountMode.Maximum none 0 [0, 1]
      (fun _ => 5) =
      Except.ok ([Event.note 10 1, Event.rest 1, Event.note 11 1,
        Event.note 5 1, Event.rest 1, Event.note 5 1], [3, 4, 5]) := by
    with_unfolding_all rfl
  have e2 : SwapPitchH heapW mrefW AmountMode.Maximum none 0 [0, 1] =
      Except.ok ([Event.note 10 1, Event.rest 1, Event.note 11 1,
        Event.note 11 1, Event.rest 1, Event.note 10 1], [3, 4, 5]) := by
    with_unfolding_all rfl
  have e3 : ShiftPitchH heapW mrefW AmountMode.Maximum none 0 =
      Except.ok ([Event.note 10 1, Event.rest 1, Event.note 11 1,
        Event.note 11 1, Event.rest 1, Event.note 10 1], [3, 4, 5]) := by
    with_unfolding_all rfl
  have e4 : ShufflePitchH heapW mrefW AmountMode.Maximum none 0 [0, 1]
      [1, 0] =
      Except.ok ([Event.note 10 1, Event.rest 1, Event.note 11 1,
        Event.note 11 1, Event.rest 1, Event.note 10 1], [3, 4, 5]) := by
    with_unfolding_all rfl
  have e5 : RemapPitchH heapW mrefW AmountMode.Maximum none 0 [0, 1]
      (fun l => l.reverse) =
      Except.ok ([Event.note 10 1, Event.rest 1, Event.note 11 1,
        Event.note 11 1, Event.rest 1, Event.note 10 1], [3, 4, 5]) := by
    with_unfolding_all rfl
  have e7 : ChangeRhythmH heapW mrefW (some 2) (some 1) DurationMode.Maximum
      none exRand 0 =
      Except.ok ([Event.note 10 1, Event.rest 1, Event.note 11 1,
        Event.note 10 1, Event.rest 1, Event.note 11 1,
        Event.note 10 1, Event.note 11 1], [6, 7]) := by
    with_unfolding_all rfl
  exact ⟨hv,
    ⟨e1, hc.1 mrefW AmountMode.Maximum none 0 [0, 1] (fun _ => 5) _ _ e1⟩,
    ⟨e2, hc.2.1 mrefW AmountMode.Maximum none 0 [0, 1] _ _ e2⟩,
    e3,
    e4,
    e5,
    hc.2.2.2.2.2.1 mrefW,
    ⟨e7, hc.2.2.2.2.2.2.1 mrefW (some 2) (some 1) DurationMode.Maximum none
      exRand 0 _ _ e7⟩,
    hc.2.2.2.2.2.2.2.1 (some mrefW) (some [0]) none none,
    hc.2.2.2.2.2.2.2.2.1 mrefW [0] true,
    hc.2.2.2.2.2.2.2.2.2 [0] mrefW⟩

end MelodyLab
